import Mathlib

/-!
Verification of the fragment-annotation core of `spectrum_utils`
(`spectrum_utils/fragment_annotation.py`).

The Python source is shallowly embedded:

* Python strings are embedded as `List Char`;
* Python floats are embedded as exact rationals (`ℚ`); the floating-point
  arithmetic of the source is modelled by exact rational arithmetic with the
  same expression structure;
* fallible code (code that can raise) is embedded in `Except`;
* Python dicts that are iterated over are embedded as insertion-ordered
  association lists (Python dicts preserve insertion order).

The peptide/modification input (`proforma.Proteoform`, `proforma.Modification`)
and the Pyteomics mass routines are external collaborators of the analysed
file; they are embedded from their interface as described by the spec (see the
doc comments of `Modification`, `Proteoform`, `aaTable` and `fast_mass`).
-/

/-! ## Character-list constants (Python string literals of the source) -/

/-- Characters of the Python string `"N-term"`. -/
def ntermStr : List Char := ['N', '-', 't', 'e', 'r', 'm']

/-- Characters of the Python string `"C-term"`. -/
def ctermStr : List Char := ['C', '-', 't', 'e', 'r', 'm']

/-- Characters of the Python string `"?"`. -/
def qmarkStr : List Char := ['?']

/-- Characters of the Python string `"GLXS"` (advanced ion-type prefixes). -/
def advancedChars : List Char := ['G', 'L', 'X', 'S']

/-- Characters of the Python string `"?abcxyzIm_prf"` (supported ion-type
prefixes). -/
def allowedChars : List Char :=
  ['?', 'a', 'b', 'c', 'x', 'y', 'z', 'I', 'm', '_', 'p', 'r', 'f']

/-- Characters of the Python string `"Da"`. -/
def daStr : List Char := ['D', 'a']

/-- Characters of the Python string `"ppm"`. -/
def ppmStr : List Char := ['p', 'p', 'm']

/-! ## Decimal rendering of integers (Python `f"{n}"` / `f"{n:+}"`) -/

/-- Decimal digit character for a value `d < 10`. -/
def digitChar (d : ℕ) : Char := Char.ofNat (48 + d)

/-- Fuel-driven decimal rendering of a natural number (most significant digit
first).  The fuel makes the recursion structural so that the kernel can
evaluate it. -/
def natDigitsAux : ℕ → ℕ → List Char
  | 0, _ => []
  | fuel + 1, n =>
    if n < 10 then [digitChar n]
    else natDigitsAux fuel (n / 10) ++ [digitChar (n % 10)]

/-- Decimal rendering of a natural number, as Python `f"{n}"` renders a
non-negative int. -/
def natDigits (n : ℕ) : List Char := natDigitsAux (n + 1) n

/-- Decimal rendering of an integer, as Python `f"{n}"` renders an int. -/
def intStr (z : ℤ) : List Char :=
  if z < 0 then '-' :: natDigits (-z).toNat else natDigits z.toNat

/-- Decimal rendering of an integer with an explicit sign, as Python
`f"{n:+}"`. -/
def signedIntStr (z : ℤ) : List Char :=
  if z < 0 then '-' :: natDigits (-z).toNat else '+' :: natDigits z.toNat

/-- Decimal-style rendering of a rational (used only where the source
formats a float into a string; the claims do not constrain the digit
format, so the rational is rendered as numerator, and denominator when it
is not 1). -/
def ratStr (q : ℚ) : List Char :=
  intStr q.num ++ (if q.den = 1 then [] else ':' :: natDigits q.den)

/-! ## The peptide/modification input (external collaborator)

Modelled from the spec: the analysed file consumes a `proforma.Proteoform`,
which carries an ordered amino-acid sequence plus an ordered-by-position list
of modifications; each modification carries a position — an integer residue
index, or a symbolic string position such as `"N-term"`/`"C-term"` — and a
signed mass delta.  The `proforma` module itself is not part of the analysed
source.  A `Modification` is a plain record: it does not support being added
to a number (relevant to the internal-fragment branch of the generator, which
adds the record itself instead of its `mass` field). -/

/-- Position of a modification: a symbolic string position (`isinstance(p,
str)` in the source) or an integer residue index. -/
inductive ModPos where
  | pstr (s : List Char)
  | pint (i : ℕ)
deriving DecidableEq, Repr

/-- Modelled from the spec: a modification carries a position and a signed
mass delta (`proforma.Modification`, not part of the analysed source). -/
structure Modification where
  position : ModPos
  mass : ℚ
deriving DecidableEq, Repr

/-- Modelled from the spec: a proteoform carries a sequence and an optional
ordered modification list (`proforma.Proteoform`, not part of the analysed
source). -/
structure Proteoform where
  sequence : List Char
  modifications : Option (List Modification)
deriving DecidableEq, Repr

/-! ## FragmentAnnotation (`FragmentAnnotation.__init__` and `__str__`)

The Python class is called `FragmentAnnotation`; it is embedded here as
`FragmentAnnot`. -/

/-- Errors raised by `FragmentAnnotation.__init__` (including its `charge`
and `mz_delta` property setters). -/
inductive AnnotErr where
  /-- Python `IndexError` from `ion_type[0]` on an empty string. -/
  | indexError
  /-- Python `NotImplementedError`: advanced ion types. -/
  | advancedIonType
  /-- Python `ValueError`: unknown ion type. -/
  | unknownIonType
  /-- Python `ValueError`: unknown ions should not contain additional
  information. -/
  | inconsistentUnknownIon
  /-- Python `ValueError`: invalid charge for unknown ions. -/
  | invalidChargeUnknown
  /-- Python `ValueError`: the charge must be specified and strictly positive
  for known ion types. -/
  | invalidCharge
  /-- Python `ValueError`: the m/z delta must be specified in Dalton or ppm
  units. -/
  | invalidMzDeltaUnit
deriving DecidableEq, Repr

/-- The validated fragment annotation value object (class
`FragmentAnnotation` of the source). -/
structure FragmentAnnot where
  ion_type : List Char
  neutral_loss : Option (List Char)
  isotope : ℤ
  charge : Option ℤ
  adduct : List Char
  analyte_number : Option ℤ
  mz_delta : Option (ℚ × List Char)
deriving DecidableEq, Repr

/-- Default adduct string `f"[M+{charge}H]"`.  When `charge` is `None`,
Python renders it as the string `"[M+NoneH]"`. -/
def defaultAdduct : Option ℤ → List Char
  | some z => '[' :: 'M' :: '+' :: (intStr z ++ ['H', ']'])
  | none => ['[', 'M', '+', 'N', 'o', 'n', 'e', 'H', ']']

/-- Embedding of `FragmentAnnotation.__init__`: all construction-time checks
in source order, then the field assignments.  The checks are, in order: the
advanced-prefix check and the known-prefix check on `ion_type[0]` (an empty
`ion_type` raises `IndexError` there), the unknown-ion consistency check,
the `charge` property setter checks, and the `mz_delta` property setter
check. -/
def mkFragmentAnnot (ion_type : List Char) (neutral_loss : Option (List Char))
    (isotope : ℤ) (charge : Option ℤ) (adduct : Option (List Char))
    (analyte_number : Option ℤ) (mz_delta : Option (ℚ × List Char)) :
    Except AnnotErr FragmentAnnot :=
  match ion_type.head? with
  | none => .error .indexError
  | some c0 =>
    if c0 ∈ advancedChars then .error .advancedIonType
    else if c0 ∉ allowedChars then .error .unknownIonType
    else if ion_type = qmarkStr ∧
        (neutral_loss ≠ none ∨ isotope ≠ 0 ∨ charge ≠ none ∨ adduct ≠ none ∨
          analyte_number ≠ none ∨ mz_delta ≠ none) then
      .error .inconsistentUnknownIon
    else if ion_type = qmarkStr ∧ charge ≠ none then .error .invalidChargeUnknown
    else if ion_type ≠ qmarkStr ∧ (charge = none ∨ ∃ z, charge = some z ∧ z ≤ 0) then
      .error .invalidCharge
    else if ∃ p, mz_delta = some p ∧ p.2 ≠ daStr ∧ p.2 ≠ ppmStr then
      .error .invalidMzDeltaUnit
    else
      .ok { ion_type := ion_type
            neutral_loss := neutral_loss
            isotope := isotope
            charge := charge
            adduct := adduct.getD (defaultAdduct charge)
            analyte_number := analyte_number
            mz_delta := mz_delta }

/-- Does an adduct string match the regular expression `\[M\+\d+H\]` at its
start (`re.match` anchors at the start only)?  Since `H` is not a digit, the
greedy `\d+` needs no backtracking. -/
def matchesDefaultAdduct : List Char → Bool
  | '[' :: 'M' :: '+' :: rest =>
    decide (rest.takeWhile Char.isDigit ≠ []) &&
      (match rest.dropWhile Char.isDigit with
       | 'H' :: ']' :: _ => true
       | _ => false)
  | _ => false

/-- Embedding of `FragmentAnnotation.__str__`: the canonical string of an
annotation. -/
def annotStr (fa : FragmentAnnot) : List Char :=
  if fa.ion_type = qmarkStr then qmarkStr
  else
    (match fa.analyte_number with
     | some k => intStr k ++ ['@']
     | none => []) ++
    fa.ion_type ++
    (match fa.neutral_loss with
     | some s => s
     | none => []) ++
    (if fa.isotope.natAbs = 1 then (if 0 < fa.isotope then ['+', 'i'] else ['-', 'i'])
     else if fa.isotope ≠ 0 then signedIntStr fa.isotope ++ ['i']
     else []) ++
    (match fa.charge with
     | some z => if 1 < z then '^' :: intStr z else []
     | none => []) ++
    (if matchesDefaultAdduct fa.adduct then [] else fa.adduct) ++
    (match fa.mz_delta with
     | some p => '/' :: (ratStr p.1 ++ (if p.2 = ppmStr then ppmStr else []))
     | none => [])

/-- Equality of `Except` values is decidable when both components are. -/
instance {ε α : Type} [DecidableEq ε] [DecidableEq α] : DecidableEq (Except ε α) :=
  fun a b =>
    match a, b with
    | .ok x, .ok y => decidable_of_iff (x = y) (by simp)
    | .error e, .error e' => decidable_of_iff (e = e') (by simp)
    | .ok _, .error _ => isFalse (by simp)
    | .error _, .ok _ => isFalse (by simp)

example : mkFragmentAnnot qmarkStr none 0 none none none none =
    .ok ⟨qmarkStr, none, 0, none, defaultAdduct none, none, none⟩ := by decide

example : mkFragmentAnnot ['b', '2'] none 0 (some 2) none none none =
    .ok ⟨['b', '2'], none, 0, some 2, ['[', 'M', '+', '2', 'H', ']'], none, none⟩ := by
  decide

example : annotStr ⟨['b', '2'], none, 0, some 2, ['[', 'M', '+', '2', 'H', ']'], none,
    none⟩ = ['b', '2', '^', '2'] := by decide

/-! ## Mass tables and the Pyteomics mass routine (external collaborator)

`pmass.std_aa_mass`, `pmass.fast_mass` and `pmass.calculate_mass` come from
Pyteomics; the spec treats them as the raw per-residue mass table and the
underlying elemental mass-calculation routine.  They are embedded with their
standard monoisotopic constants, as exact rationals. -/

/-- Monoisotopic mass of a hydrogen atom. -/
def massHAtom : ℚ := 1.00782503207

/-- Monoisotopic mass of an oxygen atom. -/
def massOAtom : ℚ := 15.9949146196

/-- Monoisotopic mass of a carbon atom. -/
def massCAtom : ℚ := 12

/-- Monoisotopic mass of a nitrogen atom. -/
def massNAtom : ℚ := 14.0030740048

/-- Monoisotopic mass of a water molecule (`calculate_mass(formula="H2O")`). -/
def massH2O : ℚ := 2 * massHAtom + massOAtom

/-- Monoisotopic mass of carbon monoxide (`calculate_mass(formula="CO")`). -/
def massCO : ℚ := massCAtom + massOAtom

/-- Monoisotopic mass of ammonia (`calculate_mass(formula="NH3")`). -/
def massNH3 : ℚ := massNAtom + 3 * massHAtom

/-- Mass of a proton (the Pyteomics `H+` species used by `fast_mass` for
ionisation). -/
def massProton : ℚ := 1.00727646688

/-- The merged residue mass table `_aa_mass` of the source:
`{**pmass.std_aa_mass, "J": 113.08406, "X": 0}`, as an insertion-ordered
association list.  The commented-out entries of the source (`B`, `Z`) are
absent, `U` and `O` are already present in Pyteomics. -/
def aaTable : List (Char × ℚ) :=
  [('G', 57.02146),
   ('A', 71.03711),
   ('S', 87.03203),
   ('P', 97.05276),
   ('V', 99.06841),
   ('T', 101.04768),
   ('C', 103.00919),
   ('L', 113.08406),
   ('I', 113.08406),
   ('N', 114.04293),
   ('D', 115.02694),
   ('Q', 128.05858),
   ('K', 128.09496),
   ('E', 129.04259),
   ('M', 131.04049),
   ('H', 137.05891),
   ('F', 147.06841),
   ('R', 156.10111),
   ('Y', 163.06333),
   ('W', 186.07931),
   ('U', 150.95363),
   ('O', 237.14772),
   ('J', 113.08406),
   ('X', 0)]

/-- Dictionary lookup `_aa_mass[aa]`; `none` models a Python `KeyError`. -/
def lookupAaMass (c : Char) : Option ℚ :=
  (aaTable.find? (fun p => p.1 = c)).map (fun p => p.2)

/-- Sum of the residue masses of a sequence (`sum(aa_mass[aa] for aa in
sequence)` inside `fast_mass`); `none` models a `KeyError` on an unknown
residue. -/
def seqMass : List Char → Option ℚ
  | [] => some 0
  | c :: cs =>
    match lookupAaMass c, seqMass cs with
    | some m, some s => some (m + s)
    | _, _ => none

/-- Ion-type composition offset of `fast_mass` (`std_ion_comp`), relative to
the neutral peptide mass (residue masses plus water):
`b = M − H2O`, `a = b − CO`, `c = b + NH3`, `y = M`, `x = y + CO − H2`,
`z = y − NH3`, `M` (precursor) has no offset.  Only these ion types are ever
passed by the generator; other characters are unreachable and map to 0. -/
def ionOffset : Char → ℚ
  | 'a' => -massH2O - massCO
  | 'b' => -massH2O
  | 'c' => -massH2O + massNH3
  | 'x' => massCO - 2 * massHAtom
  | 'y' => 0
  | 'z' => -massNH3
  | _ => 0

/-- Embedding of `pmass.fast_mass(sequence, ion_type, charge, aa_mass)`:
the summed residue masses plus water, plus the ion-type offset, ionised by
`charge` protons and divided by the charge.  `none` models a `KeyError`
from an unknown residue. -/
def fast_mass (seq : List Char) (ik : Char) (charge : ℕ) : Option ℚ :=
  (seqMass seq).map
    (fun s => (s + massH2O + ionOffset ik + charge * massProton) / charge)

/-- Total variant of `fast_mass` (defaulting an impossible lookup failure to
0), used to state theorems whose hypotheses guarantee the lookups succeed. -/
def fastMassD (seq : List Char) (ik : Char) (charge : ℕ) : ℚ :=
  (fast_mass seq ik charge).getD 0

/-! ## The fragment generator (`get_theoretical_fragments`) -/

/-- Errors raised by `get_theoretical_fragments`. -/
inductive GenErr where
  /-- Python `ValueError` for the ambiguous residues `B`/`Z`. -/
  | ambiguousResidue (c : Char)
  /-- Python `TypeError`: in the internal-fragment branch, either comparing
  a symbolic (string) modification position with `<` against an int, or
  adding a `Modification` object itself to the running mass. -/
  | typeErr
  /-- Python `KeyError` from a residue missing from the mass table. -/
  | keyErr
  /-- An error raised by a `FragmentAnnotation` constructor call inside the
  generator. -/
  | annotErr (e : AnnotErr)
deriving DecidableEq, Repr

/-- The third component of a base-fragment tuple (`fragment_i` in the
source): an int cleavage index for terminal ions, the string
`f"{start_i+1}:{stop_i+1}"` for internal ions, or the string `"p"` for the
precursor. -/
inductive FragIdx where
  | num (i : ℕ)
  | rng (a b : ℕ)
  | prec
deriving DecidableEq, Repr

/-- A base-fragment tuple `(fragment_sequence, ion_type, fragment_i,
mod_mass)` of the source. -/
structure BaseFrag where
  fseq : List Char
  ion : Char
  idx : FragIdx
  modMass : ℚ
deriving DecidableEq, Repr

/-- First while loop of the N-terminal branch: skip modifications whose
position is a string different from `"N-term"` (unlocalized modifications);
stop at the first integer-positioned or `"N-term"` modification.  The cursor
`mod_i` into the (immutable) modification list is embedded as the remaining
suffix of the list. -/
def skipUnloc : List Modification → List Modification
  | [] => []
  | m :: ms =>
    match m.position with
    | .pstr s => if s = ntermStr then m :: ms else skipUnloc ms
    | .pint _ => m :: ms

/-- Second while loop of the N-terminal branch: fold in every modification
whose position is `"N-term"` or an integer strictly less than the cleavage
index `fragment_i`; stop at the first other modification. -/
def foldN (fragment_i : ℕ) : List Modification → ℚ → List Modification × ℚ
  | [], acc => ([], acc)
  | m :: ms, acc =>
    match m.position with
    | .pstr s =>
      if s = ntermStr then foldN fragment_i ms (acc + m.mass) else (m :: ms, acc)
    | .pint i =>
      if i < fragment_i then foldN fragment_i ms (acc + m.mass) else (m :: ms, acc)

/-- The `for fragment_i in range(1, len(sequence))` loop of the N-terminal
branch for one ion type: at each cleavage index run the two while loops, then
emit the base fragment `(sequence[:fragment_i], ion_type, fragment_i,
mod_mass)`.  Returns the emitted fragments together with the final cursor
state, which the source threads into the next requested ion type. -/
def walkN (seq : List Char) (it : Char) :
    List ℕ → List Modification → ℚ → List BaseFrag × List Modification × ℚ
  | [], rem, acc => ([], rem, acc)
  | f :: fs, rem, acc =>
    let rem1 := skipUnloc rem
    let st2 := foldN f rem1 acc
    let rest := walkN seq it fs st2.1 st2.2
    (⟨seq.take f, it, .num f, st2.2⟩ :: rest.1, rest.2)

/-- The `for ion_type in set("abc") & set(ion_types)` loop.  Python iterates
the set in an unspecified (hash-dependent) order; the embedding fixes the
order `a`, `b`, `c` filtered by membership in `ion_types`.  The modification
cursor and accumulator are initialised once before this loop in the source
(`mod_i, mod_mass = 0, 0`) and are *not* reset between ion types; the
embedding threads them through accordingly. -/
def walkNCats (seq : List Char) :
    List Char → List Modification → ℚ → List BaseFrag
  | [], _, _ => []
  | t :: ts, rem, acc =>
    let r := walkN seq t (List.range' 1 (seq.length - 1)) rem acc
    r.1 ++ walkNCats seq ts r.2.1 r.2.2

/-- While loop of the C-terminal branch: fold in every modification whose
position is `"C-term"` or an integer ≥ the cleavage index `fragment_i`; stop
at the first other modification.  The source's backward cursor (from the last
modification towards the first) is embedded as a forward walk over the
reversed modification list. -/
def foldC (fragment_i : ℕ) : List Modification → ℚ → List Modification × ℚ
  | [], acc => ([], acc)
  | m :: ms, acc =>
    match m.position with
    | .pstr s =>
      if s = ctermStr then foldC fragment_i ms (acc + m.mass) else (m :: ms, acc)
    | .pint i =>
      if fragment_i ≤ i then foldC fragment_i ms (acc + m.mass) else (m :: ms, acc)

/-- The `for fragment_i in range(len(sequence) - 1, 0, -1)` loop of the
C-terminal branch for one ion type, emitting
`(sequence[fragment_i:], ion_type, len(sequence) - fragment_i, mod_mass)`. -/
def walkC (seq : List Char) (it : Char) :
    List ℕ → List Modification → ℚ → List BaseFrag × List Modification × ℚ
  | [], rem, acc => ([], rem, acc)
  | f :: fs, rem, acc =>
    let st2 := foldC f rem acc
    let rest := walkC seq it fs st2.1 st2.2
    (⟨seq.drop f, it, .num (seq.length - f), st2.2⟩ :: rest.1, rest.2)

/-- The `for ion_type in set("xyz") & set(ion_types)` loop, in the fixed
order `x`, `y`, `z` filtered by membership (Python set order is
unspecified).  The cursor is re-initialised to the *last* modification and
the accumulator to 0 before this loop (for a proteoform without a
modification list the source resets a misspelled dead variable `mod_mas`
instead, but the accumulator provably still holds 0 there, so the embedding
resets unconditionally); as in the N-terminal branch, the state is *not*
reset between the ion types of this group. -/
def walkCCats (seq : List Char) :
    List Char → List Modification → ℚ → List BaseFrag
  | [], _, _ => []
  | t :: ts, rem, acc =>
    let r := walkC seq t (List.range' 1 (seq.length - 1)).reverse rem acc
    r.1 ++ walkCCats seq ts r.2.1 r.2.2

/-- First while loop of the internal-fragment branch: skip modifications
whose position is a string (any symbolic position) or an integer less than
`start_i`. -/
def skipInternalStart (start_i : ℕ) : List Modification → List Modification
  | [] => []
  | m :: ms =>
    match m.position with
    | .pstr _ => skipInternalStart start_i ms
    | .pint i => if i < start_i then skipInternalStart start_i ms else m :: ms

/-- Second while loop of the internal-fragment branch
(`while ... modifications[mod_i_stop].position < stop_i: mod_mass +=
modifications[mod_i_stop]`).  Two Python `TypeError`s are embedded: the
unguarded `position < stop_i` comparison raises on a string position, and
the loop body adds the `Modification` *object* itself (not its `.mass`) to
the numeric accumulator, which raises as well.  Consequently the loop either
leaves the state untouched or raises. -/
def foldInternal (stop_i : ℕ) :
    List Modification → ℚ → Except GenErr (List Modification × ℚ)
  | [], acc => .ok ([], acc)
  | m :: ms, acc =>
    match m.position with
    | .pstr _ => .error .typeErr
    | .pint i => if i < stop_i then .error .typeErr else .ok (m :: ms, acc)

/-- The `for stop_i in range(start_i + 2, len(sequence))` loop: run the
second while loop, then emit `(sequence[start_i:stop_i], "b",
f"{start_i+1}:{stop_i+1}", mod_mass)`. -/
def innerInternal (seq : List Char) (start_i : ℕ) :
    List ℕ → List Modification → ℚ → Except GenErr (List BaseFrag)
  | [], _, _ => .ok []
  | stop :: rest, rem, acc =>
    match foldInternal stop rem acc with
    | .error e => .error e
    | .ok st =>
      match innerInternal seq start_i rest st.1 st.2 with
      | .error e => .error e
      | .ok frs =>
        .ok (⟨(seq.drop start_i).take (stop - start_i), 'b',
              .rng (start_i + 1) (stop + 1), st.2⟩ :: frs)

/-- The `for start_i in range(1, len(sequence))` loop of the
internal-fragment branch; the cursor and accumulator are re-initialised for
every start index. -/
def internalFrags (seq : List Char) (mods : List Modification) :
    List ℕ → Except GenErr (List BaseFrag)
  | [] => .ok []
  | start :: rest =>
    let rem := skipInternalStart start mods
    match innerInternal seq start
        (List.range' (start + 2) (seq.length - (start + 2))) rem 0 with
    | .error e => .error e
    | .ok frs =>
      match internalFrags seq mods rest with
      | .error e => .error e
      | .ok frs2 => .ok (frs ++ frs2)

/-- Sum of all modification masses (`sum([mod.mass for mod in
modifications])` in the precursor branch). -/
def modMassSum (mods : List Modification) : ℚ := (mods.map (fun m => m.mass)).sum

/-- All base fragments, in generation order: N-terminal ion types, then
C-terminal ion types, then internal fragments (when `"m"` is requested),
then the precursor (when `"p"` is requested).  `mods` abbreviates the
modification list, the empty list when the proteoform has none (the source
treats an absent list and an empty list identically in every branch). -/
def baseFragments (pf : Proteoform) (ion_types : List Char) :
    Except GenErr (List BaseFrag) :=
  let mods := pf.modifications.getD []
  let nPart := walkNCats pf.sequence
    (['a', 'b', 'c'].filter (fun c => c ∈ ion_types)) mods 0
  let cPart := walkCCats pf.sequence
    (['x', 'y', 'z'].filter (fun c => c ∈ ion_types)) mods.reverse 0
  let terminal := nPart ++ cPart
  match (if 'm' ∈ ion_types then
           internalFrags pf.sequence mods (List.range' 1 (pf.sequence.length - 1))
         else .ok []) with
  | .error e => .error e
  | .ok intl =>
    .ok (terminal ++ intl ++
      (if 'p' ∈ ion_types then [⟨pf.sequence, 'M', .prec, modMassSum mods⟩] else []))

/-- The `annot_type` computation of the mass loop: internal-range labels
become `f"m{fragment_i}"`, the precursor label becomes `"p"`, and an integer
cleavage index becomes `f"{ion_type}{fragment_i}"`.  (The initial `"?"`
default of the source is dead: every string label either contains `":"` or
equals `"p"`.) -/
def annotType (ik : Char) : FragIdx → List Char
  | .num i => ik :: natDigits i
  | .rng a b => 'm' :: (natDigits a ++ ':' :: natDigits b)
  | .prec => ['p']

/-- The inner `for charge in range(1, max_charge + 1)` loop of the mass
computation, for one base fragment: construct the annotation and compute
`fast_mass(...) + mod_mass / charge`. -/
def expandCharges (bf : BaseFrag) :
    List ℕ → Except GenErr (List (FragmentAnnot × ℚ))
  | [] => .ok []
  | c :: cs =>
    match mkFragmentAnnot (annotType bf.ion bf.idx) none 0 (some (c : ℤ))
        none none none with
    | .error e => .error (.annotErr e)
    | .ok fa =>
      match fast_mass bf.fseq bf.ion c with
      | none => .error .keyErr
      | some m =>
        match expandCharges bf cs with
        | .error e => .error e
        | .ok rest => .ok ((fa, m + bf.modMass / c) :: rest)

/-- The outer `for ... in base_fragments` loop of the mass computation. -/
def chargeStage (maxCharge : ℕ) :
    List BaseFrag → Except GenErr (List (FragmentAnnot × ℚ))
  | [] => .ok []
  | bf :: bfs =>
    match expandCharges bf (List.range' 1 maxCharge) with
    | .error e => .error e
    | .ok v1 =>
      match chargeStage maxCharge bfs with
      | .error e => .error e
      | .ok v2 => .ok (v1 ++ v2)

/-- The mass difference used for immonium ions:
`calculate_mass(formula="CO") - calculate_mass(formula="H")`. -/
def immoniumMassDiff : ℚ := massCO - massHAtom

/-- The immonium-ion branch: one singly-charged entry per residue of the
mass table other than the wildcard `"X"`, with mass `residue mass -
(mass(CO) - mass(H))`, independent of the input sequence. -/
def immoniumFragments : List (Char × ℚ) → Except GenErr (List (FragmentAnnot × ℚ))
  | [] => .ok []
  | (aa, m) :: rest =>
    if aa = 'X' then immoniumFragments rest
    else
      match mkFragmentAnnot ['I', aa] none 0 (some 1) none none none with
      | .error e => .error (.annotErr e)
      | .ok fa =>
        match immoniumFragments rest with
        | .error e => .error e
        | .ok frs => .ok ((fa, m - immoniumMassDiff) :: frs)

/-- The inner `for fragment, mass in fragments_masses` loop of the
neutral-loss expansion, for one named loss: construct the derived annotation
(same ion type and charge, the signed loss token as neutral loss) and the
mass `mass + mass_diff / fragment.charge`.  Dividing by a `None` charge
would raise a `TypeError`; the constructor call happens first, as in the
source. -/
def lossPerFrag (nlStr : List Char) (d : ℚ) :
    List (FragmentAnnot × ℚ) → Except GenErr (List (FragmentAnnot × ℚ))
  | [] => .ok []
  | (fa, m) :: fs =>
    match mkFragmentAnnot fa.ion_type (some nlStr) 0 fa.charge none none none with
    | .error e => .error (.annotErr e)
    | .ok fa2 =>
      match fa.charge with
      | none => .error .typeErr
      | some c =>
        match lossPerFrag nlStr d fs with
        | .error e => .error e
        | .ok rest => .ok ((fa2, m + d / (c : ℚ)) :: rest)

/-- The outer `for neutral_loss, mass_diff in neutral_losses.items()` loop:
skip the `None` entry, form the signed token `f"-{name}"`/`f"+{name}"` from
the sign of the mass difference, and derive a fragment from every
already-generated fragment. -/
def lossFragments (frags : List (FragmentAnnot × ℚ)) :
    List (Option (List Char) × ℚ) → Except GenErr (List (FragmentAnnot × ℚ))
  | [] => .ok []
  | (none, _) :: rest => lossFragments frags rest
  | (some name, d) :: rest =>
    match lossPerFrag ((if d < 0 then '-' else '+') :: name) d frags with
    | .error e => .error e
    | .ok v1 =>
      match lossFragments frags rest with
      | .error e => .error e
      | .ok v2 => .ok (v1 ++ v2)

/-- All fragments before the neutral-loss expansion, in generation order:
the charged terminal / internal / precursor fragments, then the immonium
ions (when requested). -/
def preLossFragments (pf : Proteoform) (ion_types : List Char) (maxCharge : ℕ) :
    Except GenErr (List (FragmentAnnot × ℚ)) :=
  match baseFragments pf ion_types with
  | .error e => .error e
  | .ok bfs =>
    match chargeStage maxCharge bfs with
    | .error e => .error e
    | .ok charged =>
      match (if 'I' ∈ ion_types then immoniumFragments aaTable else .ok []) with
      | .error e => .error e
      | .ok imms => .ok (charged ++ imms)

/-- All fragments before sorting, in generation order: the pre-loss
fragments followed by the neutral-loss variants of all of them. -/
def allFragments (pf : Proteoform) (ion_types : List Char) (maxCharge : ℕ)
    (nlEff : List (Option (List Char) × ℚ)) :
    Except GenErr (List (FragmentAnnot × ℚ)) :=
  match preLossFragments pf ion_types maxCharge with
  | .error e => .error e
  | .ok pre =>
    match lossFragments pre nlEff with
    | .error e => .error e
    | .ok losses => .ok (pre ++ losses)

/-- Stable insertion of an entry into a mass-sorted list: the entry goes
after every entry of not-larger mass. -/
def insertByMass (x : FragmentAnnot × ℚ) :
    List (FragmentAnnot × ℚ) → List (FragmentAnnot × ℚ)
  | [] => [x]
  | y :: ys => if y.2 < x.2 then y :: insertByMass x ys else x :: y :: ys

/-- Embedding of Python's `sorted(..., key=operator.itemgetter(1))`: a
stable ascending sort on the second (mass) component.  Python specifies
`sorted` as exactly this: ascending by key, preserving the original order of
equal-key entries; the embedding implements that specification as a stable
insertion sort. -/
def sortByMass : List (FragmentAnnot × ℚ) → List (FragmentAnnot × ℚ)
  | [] => []
  | x :: xs => insertByMass x (sortByMass xs)

/-- Embedding of `get_theoretical_fragments(proteoform, ion_types,
max_charge, neutral_losses)`.  The ambiguous-residue checks run first; the
neutral-loss mapping defaults to `{None: 0}`; the result is the mass-sorted
fragment list. -/
def get_theoretical_fragments (pf : Proteoform) (ion_types : List Char)
    (maxCharge : ℕ) (neutral_losses : Option (List (Option (List Char) × ℚ))) :
    Except GenErr (List (FragmentAnnot × ℚ)) :=
  if 'B' ∈ pf.sequence then .error (.ambiguousResidue 'B')
  else if 'Z' ∈ pf.sequence then .error (.ambiguousResidue 'Z')
  else
    match allFragments pf ion_types maxCharge (neutral_losses.getD [(none, 0)]) with
    | .error e => .error e
    | .ok frs => .ok (sortByMass frs)

/-! ## Claim-side definitions used in the theorem statements -/

/-- Does a modification position qualify for an N-terminal fragment with
cleavage index `f` according to the spec: positioned at `"N-term"` or at an
integer index strictly less than `f`? -/
def posQualN (f : ℕ) : ModPos → Bool
  | .pstr s => s = ntermStr
  | .pint i => i < f

/-- Does a modification position qualify for a C-terminal fragment with
cleavage index `f` according to the spec: positioned at `"C-term"` or at an
integer index ≥ `f`? -/
def posQualC (f : ℕ) : ModPos → Bool
  | .pstr s => s = ctermStr
  | .pint i => f ≤ i

/-- The modification mass the spec assigns to an N-terminal fragment with
cleavage index `f`: the sum of the mass deltas of the modifications
positioned at `"N-term"` or at an integer index strictly below `f`. -/
def claimSumN (mods : List Modification) (f : ℕ) : ℚ :=
  modMassSum (mods.filter (fun m => posQualN f m.position))

/-- The modification mass the spec assigns to a C-terminal fragment with
cleavage index `f`: the sum of the mass deltas of the modifications
positioned at `"C-term"` or at an integer index ≥ `f`. -/
def claimSumC (mods : List Modification) (f : ℕ) : ℚ :=
  modMassSum (mods.filter (fun m => posQualC f m.position))

/-- The annotation record the generator builds for a known ion type at a
given positive charge: every field at its default except the ion type and
the charge (with the matching default adduct). -/
def mkKnown (ion : List Char) (c : ℤ) : FragmentAnnot :=
  ⟨ion, none, 0, some c, defaultAdduct (some c), none, none⟩

/-- The annotation record the neutral-loss expansion builds: as `mkKnown`
plus the signed neutral-loss token. -/
def mkKnownLoss (ion : List Char) (nl : List Char) (c : ℤ) : FragmentAnnot :=
  ⟨ion, some nl, 0, some c, defaultAdduct (some c), none, none⟩

/-- Entries of a fragment list whose annotation is a no-loss ion of the
category identified by first character `t`, keeping their masses. -/
def entriesOfCat (t : Char) (l : List (FragmentAnnot × ℚ)) :
    List (FragmentAnnot × ℚ) :=
  l.filter (fun e => decide (e.1.ion_type.head? = some t ∧ e.1.neutral_loss = none))

/-- Masses of the entries of a fragment list carrying a given exact
annotation ion-type label and no neutral loss. -/
def massesOfLabel (lbl : List Char) (l : List (FragmentAnnot × ℚ)) : List ℚ :=
  (l.filter (fun e => decide (e.1.ion_type = lbl ∧ e.1.neutral_loss = none))).map
    (fun e => e.2)

/-- Modifications all positioned at `"N-term"`, with the given masses. -/
def ntermMods (l : List ℚ) : List Modification :=
  l.map (fun q => ⟨.pstr ntermStr, q⟩)

/-- Modifications all positioned at `"C-term"`, with the given masses. -/
def ctermMods (l : List ℚ) : List Modification :=
  l.map (fun q => ⟨.pstr ctermStr, q⟩)

/-- Modifications at integer positions, from (position, mass) pairs. -/
def intMods (l : List (ℕ × ℚ)) : List Modification :=
  l.map (fun p => ⟨.pint p.1, p.2⟩)

/-- The immonium-ion entries: one per mass-table residue other than the
wildcard, singly charged, with the residue mass minus `mass(CO) − mass(H)`. -/
def immoniumList : List (FragmentAnnot × ℚ) :=
  (aaTable.filter (fun p => p.1 ≠ 'X')).map
    (fun p => (mkKnown ['I', p.1] 1, p.2 - immoniumMassDiff))

/-- Is every residue of a sequence present in the residue mass table? -/
def residuesKnown (seq : List Char) : Prop :=
  ∀ c ∈ seq, (lookupAaMass c).isSome

/-- Does every residue of a sequence have a strictly positive table mass? -/
def residuesPositive (seq : List Char) : Prop :=
  ∀ c ∈ seq, ∃ q, lookupAaMass c = some q ∧ 0 < q


/-- Claim-side analyte token: `"{n}@"` when the analyte number is set. -/
def analyteTokSpec : Option ℤ → List Char
  | some k => intStr k ++ ['@']
  | none => []

/-- Claim-side neutral-loss token: the stored string verbatim. -/
def nlTokSpec : Option (List Char) → List Char
  | some s => s
  | none => []

/-- Claim-side isotope token: `"+i"`/`"-i"` at ±1, `"{±n}i"` for other
non-zero values, absent at 0. -/
def isoTokSpec (iso : ℤ) : List Char :=
  if iso = 1 then ['+', 'i']
  else if iso = -1 then ['-', 'i']
  else if iso ≠ 0 then signedIntStr iso ++ ['i']
  else []

/-- Claim-side charge token: `"^{charge}"` only when the charge exceeds 1. -/
def chargeTokSpec : Option ℤ → List Char
  | some z => if 1 < z then '^' :: intStr z else []
  | none => []

/-- Claim-side adduct token: the adduct string only when it was supplied and
does not match the default pattern `[M+<digits>H]`. -/
def adductTokSpec : Option (List Char) → List Char
  | some s => if matchesDefaultAdduct s then [] else s
  | none => []

/-- Claim-side m/z-delta token: `"/{delta}"` with a trailing `"ppm"` for ppm
units and no suffix for Daltons. -/
def mzTokSpec : Option (ℚ × List Char) → List Char
  | some p => '/' :: (ratStr p.1 ++ (if p.2 = ppmStr then ppmStr else []))
  | none => []

/-! ## Helper lemmas: decimal digits and the default-adduct pattern -/

lemma digitChar_isDigit {d : ℕ} (h : d < 10) : (digitChar d).isDigit = true := by
  interval_cases d <;> decide

lemma natDigitsAux_isDigit :
    ∀ (fuel n : ℕ), ∀ c ∈ natDigitsAux fuel n, c.isDigit = true := by
  intro fuel
  induction fuel with
  | zero => intro n c hc; simp [natDigitsAux] at hc
  | succ fuel ih =>
    intro n c hc
    rw [natDigitsAux] at hc
    split at hc
    · next h =>
      simp at hc
      subst hc
      exact digitChar_isDigit h
    · next h =>
      rcases List.mem_append.mp hc with h1 | h1
      · exact ih _ c h1
      · simp at h1
        subst h1
        exact digitChar_isDigit (Nat.mod_lt _ (by omega))

lemma natDigits_isDigit {n : ℕ} : ∀ c ∈ natDigits n, c.isDigit = true :=
  natDigitsAux_isDigit (n + 1) n

lemma natDigits_ne_nil {n : ℕ} : natDigits n ≠ [] := by
  rw [natDigits, natDigitsAux]
  split
  · simp
  · simp

lemma takeWhile_append_all {p : Char → Bool} :
    ∀ (l r : List Char), (∀ c ∈ l, p c = true) →
      List.takeWhile p (l ++ r) = l ++ List.takeWhile p r := by
  intro l
  induction l with
  | nil => simp
  | cons a l ih =>
    intro r h
    have ha : p a = true := h a (by simp)
    simp only [List.cons_append, List.takeWhile_cons, ha, if_true]
    rw [ih r (fun c hc => h c (by simp [hc]))]

lemma dropWhile_append_all {p : Char → Bool} :
    ∀ (l r : List Char), (∀ c ∈ l, p c = true) →
      List.dropWhile p (l ++ r) = List.dropWhile p r := by
  intro l
  induction l with
  | nil => simp
  | cons a l ih =>
    intro r h
    have ha : p a = true := h a (by simp)
    simp only [List.cons_append, List.dropWhile_cons, ha, if_true]
    exact ih r (fun c hc => h c (by simp [hc]))

lemma matchesDefaultAdduct_default {z : ℤ} (hz : 0 < z) :
    matchesDefaultAdduct (defaultAdduct (some z)) = true := by
  have hd : intStr z = natDigits z.toNat := by
    rw [intStr, if_neg (by omega)]
  rw [defaultAdduct, hd]
  show matchesDefaultAdduct ('[' :: 'M' :: '+' :: (natDigits z.toNat ++ ['H', ']'])) = true
  rw [matchesDefaultAdduct]
  rw [takeWhile_append_all _ _ (fun c hc => natDigits_isDigit c hc),
    dropWhile_append_all _ _ (fun c hc => natDigits_isDigit c hc)]
  simp [natDigits_ne_nil, List.takeWhile, List.dropWhile]

/-! ## Helper lemmas: the annotation constructor -/

lemma mkFragmentAnnot_ok_fields {i : List Char} {n : Option (List Char)} {iso : ℤ}
    {ch : Option ℤ} {ad : Option (List Char)} {an : Option ℤ}
    {mz : Option (ℚ × List Char)} {fa : FragmentAnnot}
    (h : mkFragmentAnnot i n iso ch ad an mz = .ok fa) :
    fa = ⟨i, n, iso, ch, ad.getD (defaultAdduct ch), an, mz⟩ := by
  cases i with
  | nil => simp [mkFragmentAnnot] at h
  | cons a t =>
    simp only [mkFragmentAnnot, List.head?_cons] at h
    split_ifs at h <;> simp_all

lemma mkFragmentAnnot_known_ok {a : Char} {t : List Char}
    (h1 : a ∉ advancedChars) (h2 : a ∈ allowedChars) (h3 : a :: t ≠ qmarkStr)
    {z : ℤ} (hz : 0 < z) (nl : Option (List Char)) :
    mkFragmentAnnot (a :: t) nl 0 (some z) none none none =
      .ok ⟨a :: t, nl, 0, some z, defaultAdduct (some z), none, none⟩ := by
  have hq1 : ¬(a :: t = qmarkStr ∧
      ((nl ≠ none) ∨ (0 : ℤ) ≠ 0 ∨ (some z : Option ℤ) ≠ none ∨
        (none : Option (List Char)) ≠ none ∨ (none : Option ℤ) ≠ none ∨
        (none : Option (ℚ × List Char)) ≠ none)) := fun hcon => h3 hcon.1
  have hq2 : ¬(a :: t = qmarkStr ∧ (some z : Option ℤ) ≠ none) := fun hcon => h3 hcon.1
  have hq3 : ¬(a :: t ≠ qmarkStr ∧
      ((some z : Option ℤ) = none ∨ ∃ w, (some z : Option ℤ) = some w ∧ w ≤ 0)) := by
    rintro ⟨-, hc | ⟨w, hw, hle⟩⟩
    · exact Option.some_ne_none _ hc
    · rw [Option.some.injEq] at hw
      omega
  have hq4 : ¬ ∃ p : ℚ × List Char,
      (none : Option (ℚ × List Char)) = some p ∧ p.2 ≠ daStr ∧ p.2 ≠ ppmStr := by
    rintro ⟨p, hp, -⟩
    simp at hp
  simp only [mkFragmentAnnot, List.head?_cons]
  rw [if_neg h1, if_neg (show ¬ a ∉ allowedChars from not_not.mpr h2),
    if_neg hq1, if_neg hq2, if_neg hq3, if_neg hq4]
  rfl

lemma mk_ok_not_conds {a : Char} {t : List Char} {nl : Option (List Char)}
    {iso : ℤ} {ch : Option ℤ} {ad : Option (List Char)} {an : Option ℤ}
    {mz : Option (ℚ × List Char)} {fa : FragmentAnnot}
    (h : mkFragmentAnnot (a :: t) nl iso ch ad an mz = .ok fa) :
    a ∉ advancedChars ∧ a ∈ allowedChars ∧
    ¬(a :: t = qmarkStr ∧
        (nl ≠ none ∨ iso ≠ 0 ∨ ch ≠ none ∨ ad ≠ none ∨ an ≠ none ∨ mz ≠ none)) ∧
    ¬(a :: t ≠ qmarkStr ∧ (ch = none ∨ ∃ z, ch = some z ∧ z ≤ 0)) ∧
    ¬(∃ p, mz = some p ∧ p.2 ≠ daStr ∧ p.2 ≠ ppmStr) := by
  simp only [mkFragmentAnnot, List.head?_cons] at h
  split_ifs at h with h1 h2 h3 h4 h5 h6 <;> try (cases h)
  exact ⟨h1, h2, h3, h5, h6⟩

/-- Claim C5: construction of a FragmentAnnotation fails exactly when one of
the listed conditions holds — the first character of `ion_type` is an
advanced prefix `GLXS`; otherwise the first character is not one of
`?abcxyzIm_prf`; the ion type is `"?"` and any other argument differs from
its default; the ion type is not `"?"` and the charge is missing or not
strictly positive; an m/z delta is given with a unit other than `"Da"` or
`"ppm"` — and all checks happen at construction time.  In particular
`Construct("?", charge=1)` fails while `Construct("?")` succeeds, and
`Construct("b", charge=0)` and `Construct("b", charge=None)` fail. -/
theorem C5_construct_validation :
    (∀ (ion : List Char) (nl : Option (List Char)) (iso : ℤ) (ch : Option ℤ)
       (ad : Option (List Char)) (an : Option ℤ) (mz : Option (ℚ × List Char)),
      (∃ e, mkFragmentAnnot ion nl iso ch ad an mz = .error e) ↔
        ((∃ c0, ion.head? = some c0 ∧ c0 ∈ advancedChars) ∨
         (¬ ∃ c0, ion.head? = some c0 ∧ c0 ∈ allowedChars) ∨
         (ion = qmarkStr ∧
           (nl ≠ none ∨ iso ≠ 0 ∨ ch ≠ none ∨ ad ≠ none ∨ an ≠ none ∨ mz ≠ none)) ∨
         (ion ≠ qmarkStr ∧ (ch = none ∨ ∃ z, ch = some z ∧ z ≤ 0)) ∨
         (∃ p, mz = some p ∧ p.2 ≠ daStr ∧ p.2 ≠ ppmStr))) ∧
    (∃ e, mkFragmentAnnot qmarkStr none 0 (some 1) none none none = .error e) ∧
    (∃ fa, mkFragmentAnnot qmarkStr none 0 none none none none = .ok fa) ∧
    (∃ e, mkFragmentAnnot ['b'] none 0 (some 0) none none none = .error e) ∧
    (∃ e, mkFragmentAnnot ['b'] none 0 none none none none = .error e) := by
  refine ⟨?_, ⟨.inconsistentUnknownIon, by decide⟩,
    ⟨⟨qmarkStr, none, 0, none, defaultAdduct none, none, none⟩, by decide⟩,
    ⟨.invalidCharge, by decide⟩, ⟨.invalidCharge, by decide⟩⟩
  intro ion nl iso ch ad an mz
  cases ion with
  | nil =>
    constructor
    · intro _
      exact Or.inr (Or.inl (by rintro ⟨c0, hc, -⟩; simp at hc))
    · intro _
      exact ⟨.indexError, rfl⟩
  | cons a t =>
    constructor
    · rintro ⟨e, he⟩
      by_contra hno
      push_neg at hno
      obtain ⟨hd1, hd2, hd3, hd4, hd5⟩ := hno
      have hc1 : ¬ a ∈ advancedChars := hd1 a rfl
      have hc2 : ¬ a ∉ allowedChars := by
        rcases hd2 with ⟨c0, hc0, hmem⟩
        simp only [List.head?_cons, Option.some.injEq] at hc0
        exact not_not.mpr (by rwa [hc0])
      have hc3 : ¬(a :: t = qmarkStr ∧
          (nl ≠ none ∨ iso ≠ 0 ∨ ch ≠ none ∨ ad ≠ none ∨ an ≠ none ∨ mz ≠ none)) := by
        rintro ⟨hq, hex⟩
        obtain ⟨e1, e2, e3, e4, e5, e6⟩ := hd3 hq
        rcases hex with h | h | h | h | h | h <;> simp_all
      have hc4 : ¬(a :: t = qmarkStr ∧ ch ≠ none) := by
        rintro ⟨hq, hch⟩
        exact hch (hd3 hq).2.2.1
      have hc5 : ¬(a :: t ≠ qmarkStr ∧ (ch = none ∨ ∃ z, ch = some z ∧ z ≤ 0)) := by
        rintro ⟨hne, hc⟩
        obtain ⟨hchne, hpos⟩ := hd4 hne
        rcases hc with h | ⟨z, hz, hle⟩
        · exact hchne h
        · exact absurd (hpos z hz) (by omega)
      have hc6 : ¬(∃ p : ℚ × List Char, mz = some p ∧ p.2 ≠ daStr ∧ p.2 ≠ ppmStr) := by
        rintro ⟨p, hp, hda, hppm⟩
        exact hppm (hd5 p hp hda)
      simp only [mkFragmentAnnot, List.head?_cons] at he
      rw [if_neg hc1, if_neg hc2, if_neg hc3, if_neg hc4, if_neg hc5, if_neg hc6] at he
      cases he
    · intro hd
      cases hres : mkFragmentAnnot (a :: t) nl iso ch ad an mz with
      | error e => exact ⟨e, rfl⟩
      | ok fa =>
        exfalso
        obtain ⟨g1, g2, g3, g4, g5⟩ := mk_ok_not_conds hres
        rcases hd with ⟨c0, hc0, hm⟩ | hno | h3 | h4 | h5
        · simp only [List.head?_cons, Option.some.injEq] at hc0
          exact g1 (by rwa [hc0])
        · exact hno ⟨a, rfl, g2⟩
        · exact g3 h3
        · exact g4 h4
        · exact g5 h5

lemma isoTok_eq (iso : ℤ) :
    (if iso.natAbs = 1 then (if 0 < iso then ['+', 'i'] else ['-', 'i'])
     else if iso ≠ 0 then signedIntStr iso ++ ['i'] else []) =
    (if iso = 1 then ['+', 'i']
     else if iso = -1 then ['-', 'i']
     else if iso ≠ 0 then signedIntStr iso ++ ['i'] else []) := by
  by_cases h1 : iso = 1
  · subst h1
    norm_num
  · by_cases h2 : iso = -1
    · subst h2
      norm_num
    · have habs : iso.natAbs ≠ 1 := by omega
      rw [if_neg habs, if_neg h1, if_neg h2]

lemma mk_ok_charge_pos {a : Char} {t : List Char} {nl : Option (List Char)}
    {iso : ℤ} {ch : Option ℤ} {ad : Option (List Char)} {an : Option ℤ}
    {mz : Option (ℚ × List Char)} {fa : FragmentAnnot}
    (h : mkFragmentAnnot (a :: t) nl iso ch ad an mz = .ok fa)
    (hne : a :: t ≠ qmarkStr) : ∃ z, ch = some z ∧ 0 < z := by
  obtain ⟨-, -, -, g4, -⟩ := mk_ok_not_conds h
  rcases hch : ch with _ | z
  · exact absurd ⟨hne, Or.inl hch⟩ g4
  · refine ⟨z, rfl, ?_⟩
    by_contra hle
    exact g4 ⟨hne, Or.inr ⟨z, hch, by omega⟩⟩

/-- Claim C6: for every validly constructed FragmentAnnotation, the canonical
string is the concatenation, in fixed order, of the analyte prefix
`"{n}@"`, the ion-type token, the verbatim neutral-loss string, the isotope
token (`"+i"`/`"-i"` at ±1, `"{±n}i"` otherwise, absent at 0), `"^{charge}"`
only when the charge exceeds 1, the adduct string only when it does not match
the default pattern `[M+<digits>H]`, and `"/{delta}"` with a trailing
`"ppm"` for ppm units; an unknown-ion annotation renders as exactly `"?"`. -/
theorem C6_render (ion : List Char) (nl : Option (List Char)) (iso : ℤ)
    (ch : Option ℤ) (ad : Option (List Char)) (an : Option ℤ)
    (mz : Option (ℚ × List Char)) (fa : FragmentAnnot)
    (h : mkFragmentAnnot ion nl iso ch ad an mz = .ok fa) :
    annotStr fa =
      if ion = qmarkStr then qmarkStr
      else
        analyteTokSpec an ++ ion ++ nlTokSpec nl ++ isoTokSpec iso ++
          chargeTokSpec ch ++ adductTokSpec ad ++ mzTokSpec mz := by
  have hch : ion ≠ qmarkStr → ∃ z, ch = some z ∧ 0 < z := by
    intro hq
    cases ion with
    | nil => simp [mkFragmentAnnot] at h
    | cons a t => exact mk_ok_charge_pos h hq
  have hfa := mkFragmentAnnot_ok_fields h
  clear h
  subst hfa
  by_cases hq : ion = qmarkStr
  · simp only [annotStr, if_pos hq]
  · simp only [annotStr, if_neg hq]
    have hiso : (if (iso : ℤ).natAbs = 1 then (if 0 < iso then ['+', 'i'] else ['-', 'i'])
        else if iso ≠ 0 then signedIntStr iso ++ ['i'] else []) = isoTokSpec iso := by
      rw [isoTokSpec, isoTok_eq]
    have hadTok : (if matchesDefaultAdduct (ad.getD (defaultAdduct ch)) then []
        else ad.getD (defaultAdduct ch)) = adductTokSpec ad := by
      rcases ad with _ | s
      · obtain ⟨z, hz, hzpos⟩ := hch hq
        subst hz
        simp only [Option.getD_none, adductTokSpec]
        rw [if_pos (matchesDefaultAdduct_default hzpos)]
      · rfl
    rw [hiso, hadTok]
    rcases an with _ | k <;> rcases nl with _ | s <;> rcases ch with _ | z <;>
      rcases mz with _ | p <;> rfl

/-- Witness for C6: a fully populated annotation (analyte 1, ion `y4`, loss
`-H2O`, isotope +2, charge 2, default adduct, ppm m/z delta of 3) renders as
`1@y4-H2O+2i^2/3ppm`. -/
theorem C6_render_witness :
    annotStr ⟨['y', '4'], some ['-', 'H', '2', 'O'], 2, some 2,
        defaultAdduct (some 2), some 1, some ((3 : ℚ), ppmStr)⟩ =
      ['1', '@', 'y', '4', '-', 'H', '2', 'O', '+', '2', 'i', '^', '2',
       '/', '3', 'p', 'p', 'm'] :=
  (C6_render ['y', '4'] (some ['-', 'H', '2', 'O']) 2 (some 2) none (some 1)
    (some ((3 : ℚ), ppmStr)) _ (by decide)).trans (by decide)

/-- Claim C10: the adduct token is omitted whenever the stored adduct merely
begins with a substring of the form `[M+<digits>H]` (the source anchors its
regular expression only at the start), so an annotation constructed with
such an adduct renders string-equal to one constructed with the default
adduct for the same charge. -/
theorem C10_adduct_prefix_suppression (ion : List Char) (nl : Option (List Char))
    (iso : ℤ) (ch : Option ℤ) (an : Option ℤ) (mz : Option (ℚ × List Char))
    (ad : List Char) (fa fa' : FragmentAnnot)
    (hm : matchesDefaultAdduct ad = true)
    (h1 : mkFragmentAnnot ion nl iso ch (some ad) an mz = .ok fa)
    (h2 : mkFragmentAnnot ion nl iso ch none an mz = .ok fa') :
    annotStr fa = annotStr fa' := by
  have hch : ion ≠ qmarkStr → ∃ z, ch = some z ∧ 0 < z := by
    intro hq
    cases ion with
    | nil => simp [mkFragmentAnnot] at h1
    | cons a t => exact mk_ok_charge_pos h1 hq
  have hfa := mkFragmentAnnot_ok_fields h1
  have hfa' := mkFragmentAnnot_ok_fields h2
  clear h1 h2
  subst hfa
  subst hfa'
  by_cases hq : ion = qmarkStr
  · simp only [annotStr, if_pos hq]
  · simp only [annotStr, if_neg hq]
    obtain ⟨z, hz, hzpos⟩ := hch hq
    subst hz
    simp only [Option.getD_some, Option.getD_none]
    rw [if_pos hm, if_pos (matchesDefaultAdduct_default hzpos)]

/-- Witness for C10: a `b` ion at charge 2 with the adduct `[M+2H]extra`
renders identically to the same ion with the default adduct. -/
theorem C10_adduct_prefix_suppression_witness :
    matchesDefaultAdduct ['[', 'M', '+', '2', 'H', ']', 'e', 'x', 't', 'r', 'a'] = true ∧
    annotStr ⟨['b'], none, 0, some 2,
        ['[', 'M', '+', '2', 'H', ']', 'e', 'x', 't', 'r', 'a'], none, none⟩ =
      annotStr ⟨['b'], none, 0, some 2, defaultAdduct (some 2), none, none⟩ :=
  ⟨by decide,
   C10_adduct_prefix_suppression ['b'] none 0 (some 2) none none
     ['[', 'M', '+', '2', 'H', ']', 'e', 'x', 't', 'r', 'a'] _ _
     (by decide) (by decide) (by decide)⟩

/-- Claim C7: a peptide sequence containing the ambiguous residue `B` or `Z`
makes the generator fail before producing any output, for every combination
of the other arguments; and generation always either completes fully or
fails with no output at all. -/
theorem C7_ambiguous_rejection :
    (∀ (pf : Proteoform) (its : List Char) (mc : ℕ)
       (nl : Option (List (Option (List Char) × ℚ))),
      ('B' ∈ pf.sequence ∨ 'Z' ∈ pf.sequence) →
        ∃ e, get_theoretical_fragments pf its mc nl = .error e) ∧
    (∀ (pf : Proteoform) (its : List Char) (mc : ℕ)
       (nl : Option (List (Option (List Char) × ℚ))),
      (∃ out, get_theoretical_fragments pf its mc nl = .ok out) ∨
      (∃ e, get_theoretical_fragments pf its mc nl = .error e)) := by
  constructor
  · intro pf its mc nl h
    rw [get_theoretical_fragments]
    by_cases hb : 'B' ∈ pf.sequence
    · exact ⟨_, by rw [if_pos hb]⟩
    · rcases h with h | h
      · exact absurd h hb
      · exact ⟨_, by rw [if_neg hb, if_pos h]⟩
  · intro pf its mc nl
    cases hr : get_theoretical_fragments pf its mc nl with
    | ok out => exact Or.inl ⟨out, rfl⟩
    | error e => exact Or.inr ⟨e, rfl⟩

/-- Witness for C7: the peptide `PB` is rejected for the default ion types,
and the trivial completes-or-fails disjunction holds at the same input. -/
theorem C7_ambiguous_rejection_witness :
    (∃ e, get_theoretical_fragments ⟨['P', 'B'], none⟩ ['b', 'y'] 1 none = .error e) ∧
    ((∃ out, get_theoretical_fragments ⟨['P', 'B'], none⟩ ['b', 'y'] 1 none = .ok out) ∨
     (∃ e, get_theoretical_fragments ⟨['P', 'B'], none⟩ ['b', 'y'] 1 none = .error e)) :=
  ⟨C7_ambiguous_rejection.1 ⟨['P', 'B'], none⟩ ['b', 'y'] 1 none (Or.inl (by decide)),
   C7_ambiguous_rejection.2 ⟨['P', 'B'], none⟩ ['b', 'y'] 1 none⟩

/-- Claim C2 (code bug): on the modified peptide `PEPTIDE` with a
modification of +15.9949 localized at residue index 3, requesting internal
fragments makes the generator raise a `TypeError` instead of producing
internal fragments with the modification mass folded in: the source adds the
`Modification` object itself (`mod_mass += proteoform.modifications[...]`)
instead of its `.mass` attribute. -/
theorem C2_internal_mod_type_error :
    get_theoretical_fragments
        ⟨['P', 'E', 'P', 'T', 'I', 'D', 'E'], some [⟨.pint 3, 15.9949⟩]⟩
        ['m'] 1 none = .error .typeErr := by
  rfl

/-! ## Helper lemmas: the stable mass sort -/

lemma insertByMass_perm (x : FragmentAnnot × ℚ) (l : List (FragmentAnnot × ℚ)) :
    (insertByMass x l).Perm (x :: l) := by
  induction l with
  | nil => simp [insertByMass]
  | cons y ys ih =>
    rw [insertByMass]
    split_ifs with h
    · exact (ih.cons y).trans (List.Perm.swap x y ys)
    · exact List.Perm.refl _

lemma sortByMass_perm (l : List (FragmentAnnot × ℚ)) : (sortByMass l).Perm l := by
  induction l with
  | nil => simp [sortByMass]
  | cons x xs ih => exact (insertByMass_perm x (sortByMass xs)).trans (ih.cons x)

lemma insertByMass_pairwise {x : FragmentAnnot × ℚ} {l : List (FragmentAnnot × ℚ)}
    (hl : l.Pairwise (fun a b => a.2 ≤ b.2)) :
    (insertByMass x l).Pairwise (fun a b => a.2 ≤ b.2) := by
  induction l with
  | nil => simp [insertByMass]
  | cons y ys ih =>
    rw [insertByMass]
    rw [List.pairwise_cons] at hl
    split_ifs with h
    · rw [List.pairwise_cons]
      refine ⟨?_, ih hl.2⟩
      intro a ha
      rcases List.mem_cons.mp ((insertByMass_perm x ys).mem_iff.mp ha) with hax | hays
      · subst hax
        exact le_of_lt h
      · exact hl.1 a hays
    · rw [List.pairwise_cons]
      refine ⟨?_, List.pairwise_cons.mpr hl⟩
      intro a ha
      rcases List.mem_cons.mp ha with hax | hays
      · subst hax
        exact le_of_not_gt h
      · exact le_trans (le_of_not_gt h) (hl.1 a hays)

lemma sortByMass_pairwise (l : List (FragmentAnnot × ℚ)) :
    (sortByMass l).Pairwise (fun a b => a.2 ≤ b.2) := by
  induction l with
  | nil => simp [sortByMass]
  | cons x xs ih => exact insertByMass_pairwise ih

lemma insertByMass_filter {q : ℚ} (x : FragmentAnnot × ℚ)
    (l : List (FragmentAnnot × ℚ)) :
    (insertByMass x l).filter (fun e => decide (e.2 = q)) =
      if x.2 = q then x :: l.filter (fun e => decide (e.2 = q))
      else l.filter (fun e => decide (e.2 = q)) := by
  induction l with
  | nil =>
    by_cases hx : x.2 = q <;> simp [insertByMass, List.filter_cons, hx]
  | cons y ys ih =>
    rw [insertByMass]
    by_cases hyx : y.2 < x.2
    · rw [if_pos hyx]
      by_cases hx : x.2 = q
      · have hy : ¬ y.2 = q := by
          intro hyq
          rw [hx] at hyx
          rw [hyq] at hyx
          exact lt_irrefl q hyx
        simp [List.filter_cons, hy, ih, hx]
      · simp [List.filter_cons, ih, hx]
    · rw [if_neg hyx]
      by_cases hx : x.2 = q <;> simp [List.filter_cons, hx]

lemma sortByMass_filter (l : List (FragmentAnnot × ℚ)) (q : ℚ) :
    (sortByMass l).filter (fun e => decide (e.2 = q)) =
      l.filter (fun e => decide (e.2 = q)) := by
  induction l with
  | nil => simp [sortByMass]
  | cons x xs ih =>
    rw [sortByMass, insertByMass_filter, List.filter_cons]
    by_cases h : x.2 = q <;> simp [h, ih]

lemma gen_ok_elim {pf : Proteoform} {its : List Char} {mc : ℕ}
    {nl : Option (List (Option (List Char) × ℚ))} {out : List (FragmentAnnot × ℚ)}
    (h : get_theoretical_fragments pf its mc nl = .ok out) :
    'B' ∉ pf.sequence ∧ 'Z' ∉ pf.sequence ∧
    ∃ pre, allFragments pf its mc (nl.getD [(none, 0)]) = .ok pre ∧
      out = sortByMass pre := by
  rw [get_theoretical_fragments] at h
  by_cases hb : 'B' ∈ pf.sequence
  · rw [if_pos hb] at h
    cases h
  · rw [if_neg hb] at h
    by_cases hz : 'Z' ∈ pf.sequence
    · rw [if_pos hz] at h
      cases h
    · rw [if_neg hz] at h
      cases hall : allFragments pf its mc (nl.getD [(none, 0)]) with
      | error e =>
        rw [hall] at h
        exact absurd h (by simp)
      | ok pre =>
        rw [hall] at h
        have h2 : Except.ok (sortByMass pre) = Except.ok out := h
        refine ⟨hb, hz, pre, rfl, ?_⟩
        injection h2 with h3
        exact h3.symm

/-- Claim C4: the generator's output is sorted ascending by theoretical mass
(mass the sole key), is a permutation of the pre-sort generation-order list
in which entries of equal mass keep their generation order (stable sort),
and two calls on the same input return identical results. -/
theorem C4_sorted_stable (pf : Proteoform) (its : List Char) (mc : ℕ)
    (nl : Option (List (Option (List Char) × ℚ))) (out : List (FragmentAnnot × ℚ))
    (h : get_theoretical_fragments pf its mc nl = .ok out) :
    out.Pairwise (fun a b => a.2 ≤ b.2) ∧
    (∃ pre, allFragments pf its mc (nl.getD [(none, 0)]) = .ok pre ∧
      out.Perm pre ∧
      ∀ q : ℚ, out.filter (fun e => decide (e.2 = q)) =
        pre.filter (fun e => decide (e.2 = q))) ∧
    get_theoretical_fragments pf its mc nl = get_theoretical_fragments pf its mc nl := by
  obtain ⟨-, -, pre, hpre, hout⟩ := gen_ok_elim h
  subst hout
  exact ⟨sortByMass_pairwise pre,
    ⟨pre, hpre, sortByMass_perm pre, sortByMass_filter pre⟩, rfl⟩

/-- Witness for C4: the generator on the unmodified peptide `PEP` with the
default ion types and charge 1 succeeds, and its output is sorted, a stable
permutation of the generation-order list, and deterministic. -/
theorem C4_sorted_stable_witness :
    ∃ out, get_theoretical_fragments ⟨['P', 'E', 'P'], none⟩ ['b', 'y'] 1 none = .ok out ∧
      (out.Pairwise (fun a b => a.2 ≤ b.2) ∧
       (∃ pre, allFragments ⟨['P', 'E', 'P'], none⟩ ['b', 'y'] 1 [(none, 0)] = .ok pre ∧
         out.Perm pre ∧
         ∀ q : ℚ, out.filter (fun e => decide (e.2 = q)) =
           pre.filter (fun e => decide (e.2 = q))) ∧
       get_theoretical_fragments ⟨['P', 'E', 'P'], none⟩ ['b', 'y'] 1 none =
         get_theoretical_fragments ⟨['P', 'E', 'P'], none⟩ ['b', 'y'] 1 none) :=
  ⟨_, rfl, C4_sorted_stable ⟨['P', 'E', 'P'], none⟩ ['b', 'y'] 1 none _ rfl⟩

/-! ## Helper lemmas: the neutral-loss stage -/

lemma allFragments_elim {pf : Proteoform} {its : List Char} {mc : ℕ}
    {nlEff : List (Option (List Char) × ℚ)} {A : List (FragmentAnnot × ℚ)}
    (h : allFragments pf its mc nlEff = .ok A) :
    ∃ pre losses, preLossFragments pf its mc = .ok pre ∧
      lossFragments pre nlEff = .ok losses ∧ A = pre ++ losses := by
  rw [allFragments] at h
  cases hpre : preLossFragments pf its mc with
  | error e =>
    rw [hpre] at h
    exact absurd h (by simp)
  | ok pre =>
    rw [hpre] at h
    have hred : (match lossFragments pre nlEff with
        | Except.error e => Except.error e
        | Except.ok losses => Except.ok (pre ++ losses)) = Except.ok A := h
    cases hloss : lossFragments pre nlEff with
    | error e =>
      rw [hloss] at hred
      exact absurd hred (by simp)
    | ok losses =>
      rw [hloss] at hred
      have h2 : Except.ok (pre ++ losses) = Except.ok A := hred
      injection h2 with h3
      exact ⟨pre, losses, rfl, hloss, h3.symm⟩

lemma lossPerFrag_mem {nlStr : List Char} {d : ℚ}
    {frags L : List (FragmentAnnot × ℚ)}
    (h : lossPerFrag nlStr d frags = .ok L)
    {fa : FragmentAnnot} {m : ℚ} (hmem : (fa, m) ∈ frags)
    {c : ℤ} (hc : fa.charge = some c) :
    (⟨fa.ion_type, some nlStr, 0, some c, defaultAdduct (some c), none, none⟩,
      m + d / (c : ℚ)) ∈ L := by
  induction frags generalizing L with
  | nil => simp at hmem
  | cons g gs ih =>
    obtain ⟨gfa, gm⟩ := g
    rw [lossPerFrag] at h
    cases hmk : mkFragmentAnnot gfa.ion_type (some nlStr) 0 gfa.charge none none none with
    | error e =>
      rw [hmk] at h
      exact absurd h (by simp)
    | ok fa2 =>
      rw [hmk] at h
      cases hgc : gfa.charge with
      | none =>
        rw [hgc] at h
        exact absurd h (by simp)
      | some cg =>
        rw [hgc] at h
        cases hrest : lossPerFrag nlStr d gs with
        | error e =>
          rw [hrest] at h
          exact absurd h (by simp)
        | ok rest =>
          rw [hrest] at h
          have h2 : Except.ok ((fa2, gm + d / (cg : ℚ)) :: rest) = Except.ok L := h
          injection h2 with h3
          subst h3
          rcases List.mem_cons.mp hmem with hhead | htail
          · have hfg : fa = gfa ∧ m = gm := by
              constructor
              · exact congrArg Prod.fst hhead
              · exact congrArg Prod.snd hhead
            obtain ⟨hfg1, hfg2⟩ := hfg
            subst hfg1
            subst hfg2
            have hceq : cg = c := by
              rw [hgc] at hc
              injection hc
            subst hceq
            have hfa2 := mkFragmentAnnot_ok_fields hmk
            subst hfa2
            rw [hgc]
            exact List.mem_cons_self _ _
          · exact List.mem_cons_of_mem _ (ih hrest htail)

lemma lossFragments_mem {frags : List (FragmentAnnot × ℚ)}
    {nlEff : List (Option (List Char) × ℚ)} {L : List (FragmentAnnot × ℚ)}
    (h : lossFragments frags nlEff = .ok L)
    {nm : List Char} {d : ℚ} (hl : (some nm, d) ∈ nlEff)
    {fa : FragmentAnnot} {m : ℚ} (hfm : (fa, m) ∈ frags)
    {c : ℤ} (hc : fa.charge = some c) :
    (⟨fa.ion_type, some ((if d < 0 then '-' else '+') :: nm), 0, some c,
       defaultAdduct (some c), none, none⟩, m + d / (c : ℚ)) ∈ L := by
  induction nlEff generalizing L with
  | nil => simp at hl
  | cons entry rest ih =>
    obtain ⟨opt, d'⟩ := entry
    cases opt with
    | none =>
      rw [lossFragments] at h
      rcases List.mem_cons.mp hl with hhead | htail
      · cases hhead
      · exact ih h htail
    | some name =>
      rw [lossFragments] at h
      cases hv1 : lossPerFrag ((if d' < 0 then '-' else '+') :: name) d' frags with
      | error e =>
        rw [hv1] at h
        exact absurd h (by simp)
      | ok v1 =>
        rw [hv1] at h
        cases hv2 : lossFragments frags rest with
        | error e =>
          rw [hv2] at h
          exact absurd h (by simp)
        | ok v2 =>
          rw [hv2] at h
          have h2 : Except.ok (v1 ++ v2) = Except.ok L := h
          injection h2 with h3
          subst h3
          rcases List.mem_cons.mp hl with hhead | htail
          · have hname : name = nm ∧ d' = d := by
              constructor
              · have := congrArg Prod.fst hhead
                simpa using this.symm
              · exact (congrArg Prod.snd hhead).symm
            obtain ⟨hn1, hn2⟩ := hname
            subst hn1
            subst hn2
            exact List.mem_append_left _ (lossPerFrag_mem hv1 hfm hc)
          · exact List.mem_append_right _ (ih hv2 htail)

/-- Claim C3: for every non-null entry `(name, D)` of the neutral-loss
mapping and every already-generated fragment `(F, M)`, the output contains a
derived fragment with the same ion type and charge as `F`, the neutral-loss
token `"-{name}"` for negative `D` and `"+{name}"` otherwise, and mass
exactly `M + D / charge(F)`; all original no-loss fragments remain in the
output. -/
theorem C3_loss_expansion (pf : Proteoform) (its : List Char) (mc : ℕ)
    (losses : List (Option (List Char) × ℚ)) (out : List (FragmentAnnot × ℚ))
    (h : get_theoretical_fragments pf its mc (some losses) = .ok out) :
    ∃ pre, preLossFragments pf its mc = .ok pre ∧
      (∀ p ∈ pre, p ∈ out) ∧
      ∀ (nm : List Char) (d : ℚ), (some nm, d) ∈ losses →
        ∀ (fa : FragmentAnnot) (m : ℚ), (fa, m) ∈ pre →
          ∀ c : ℤ, fa.charge = some c →
            (⟨fa.ion_type, some ((if d < 0 then '-' else '+') :: nm), 0, some c,
               defaultAdduct (some c), none, none⟩, m + d / (c : ℚ)) ∈ out := by
  obtain ⟨-, -, A, hA, hout⟩ := gen_ok_elim h
  obtain ⟨pre, L, hpre, hL, hAeq⟩ := allFragments_elim hA
  subst hAeq
  subst hout
  have hperm := sortByMass_perm (pre ++ L)
  refine ⟨pre, hpre, ?_, ?_⟩
  · intro p hp
    exact hperm.symm.subset (List.mem_append_left _ hp)
  · intro nm d hl fa m hfm c hc
    exact hperm.symm.subset
      (List.mem_append_right _ (lossFragments_mem hL hl hfm hc))

/-- Witness for C3: the generator on `PEP` (b ions, charge 1) with a water
neutral loss succeeds and the loss-expansion membership facts hold. -/
theorem C3_loss_expansion_witness :
    ∃ out, get_theoretical_fragments ⟨['P', 'E', 'P'], none⟩ ['b'] 1
        (some [(some ['H', '2', 'O'], -18.010565)]) = .ok out ∧
      ∃ pre, preLossFragments ⟨['P', 'E', 'P'], none⟩ ['b'] 1 = .ok pre ∧
        (∀ p ∈ pre, p ∈ out) ∧
        ∀ (nm : List Char) (d : ℚ),
          (some nm, d) ∈ [(some ['H', '2', 'O'], (-18.010565 : ℚ))] →
          ∀ (fa : FragmentAnnot) (m : ℚ), (fa, m) ∈ pre →
            ∀ c : ℤ, fa.charge = some c →
              (⟨fa.ion_type, some ((if d < 0 then '-' else '+') :: nm), 0, some c,
                 defaultAdduct (some c), none, none⟩, m + d / (c : ℚ)) ∈ out :=
  ⟨_, rfl, C3_loss_expansion ⟨['P', 'E', 'P'], none⟩ ['b'] 1
    [(some ['H', '2', 'O'], -18.010565)] _ rfl⟩

/-! ## Helper lemmas: shapes of generated fragments -/

lemma walkN_shape {seq : List Char} {t : Char} :
    ∀ (fs : List ℕ) (rem : List Modification) (acc : ℚ) (bf : BaseFrag),
      bf ∈ (walkN seq t fs rem acc).1 → bf.ion = t ∧ ∃ i, bf.idx = .num i := by
  intro fs
  induction fs with
  | nil => intro rem acc bf hbf; simp [walkN] at hbf
  | cons f fs ih =>
    intro rem acc bf hbf
    rw [walkN] at hbf
    rcases List.mem_cons.mp hbf with hh | ht
    · subst hh
      exact ⟨rfl, f, rfl⟩
    · exact ih _ _ bf ht

lemma walkNCats_shape {seq : List Char} :
    ∀ (ts : List Char) (rem : List Modification) (acc : ℚ) (bf : BaseFrag),
      bf ∈ walkNCats seq ts rem acc → bf.ion ∈ ts ∧ ∃ i, bf.idx = .num i := by
  intro ts
  induction ts with
  | nil => intro rem acc bf hbf; simp [walkNCats] at hbf
  | cons t ts ih =>
    intro rem acc bf hbf
    rw [walkNCats] at hbf
    rcases List.mem_append.mp hbf with hh | ht
    · obtain ⟨h1, h2⟩ := walkN_shape _ _ _ bf hh
      exact ⟨by rw [h1]; exact List.mem_cons_self _ _, h2⟩
    · obtain ⟨h1, h2⟩ := ih _ _ bf ht
      exact ⟨List.mem_cons_of_mem _ h1, h2⟩

lemma walkC_shape {seq : List Char} {t : Char} :
    ∀ (fs : List ℕ) (rem : List Modification) (acc : ℚ) (bf : BaseFrag),
      bf ∈ (walkC seq t fs rem acc).1 → bf.ion = t ∧ ∃ i, bf.idx = .num i := by
  intro fs
  induction fs with
  | nil => intro rem acc bf hbf; simp [walkC] at hbf
  | cons f fs ih =>
    intro rem acc bf hbf
    rw [walkC] at hbf
    rcases List.mem_cons.mp hbf with hh | ht
    · subst hh
      exact ⟨rfl, _, rfl⟩
    · exact ih _ _ bf ht

lemma walkCCats_shape {seq : List Char} :
    ∀ (ts : List Char) (rem : List Modification) (acc : ℚ) (bf : BaseFrag),
      bf ∈ walkCCats seq ts rem acc → bf.ion ∈ ts ∧ ∃ i, bf.idx = .num i := by
  intro ts
  induction ts with
  | nil => intro rem acc bf hbf; simp [walkCCats] at hbf
  | cons t ts ih =>
    intro rem acc bf hbf
    rw [walkCCats] at hbf
    rcases List.mem_append.mp hbf with hh | ht
    · obtain ⟨h1, h2⟩ := walkC_shape _ _ _ bf hh
      exact ⟨by rw [h1]; exact List.mem_cons_self _ _, h2⟩
    · obtain ⟨h1, h2⟩ := ih _ _ bf ht
      exact ⟨List.mem_cons_of_mem _ h1, h2⟩

lemma innerInternal_shape {seq : List Char} {start : ℕ} :
    ∀ (stops : List ℕ) (rem : List Modification) (acc : ℚ)
      (v : List BaseFrag) (bf : BaseFrag),
      innerInternal seq start stops rem acc = .ok v → bf ∈ v →
        ∃ a b, bf.idx = .rng a b := by
  intro stops
  induction stops with
  | nil =>
    intro rem acc v bf h hbf
    rw [innerInternal] at h
    have h2 : Except.ok ([] : List BaseFrag) = Except.ok v := h
    injection h2 with h3
    subst h3
    simp at hbf
  | cons stop rest ih =>
    intro rem acc v bf h hbf
    rw [innerInternal] at h
    cases hfold : foldInternal stop rem acc with
    | error e =>
      rw [hfold] at h
      exact absurd h (by simp)
    | ok st =>
      rw [hfold] at h
      have hred : (match innerInternal seq start rest st.1 st.2 with
          | Except.error e => Except.error e
          | Except.ok frs => Except.ok (⟨(seq.drop start).take (stop - start), 'b',
              .rng (start + 1) (stop + 1), st.2⟩ :: frs)) = Except.ok v := h
      cases hrec : innerInternal seq start rest st.1 st.2 with
      | error e =>
        rw [hrec] at hred
        exact absurd hred (by simp)
      | ok frs =>
        rw [hrec] at hred
        have h2 : Except.ok (⟨(seq.drop start).take (stop - start), 'b',
            .rng (start + 1) (stop + 1), st.2⟩ :: frs) = Except.ok v := hred
        injection h2 with h3
        subst h3
        rcases List.mem_cons.mp hbf with hh | ht
        · subst hh
          exact ⟨_, _, rfl⟩
        · exact ih _ _ _ bf hrec ht

lemma internalFrags_shape {seq : List Char} {mods : List Modification} :
    ∀ (starts : List ℕ) (v : List BaseFrag) (bf : BaseFrag),
      internalFrags seq mods starts = .ok v → bf ∈ v →
        ∃ a b, bf.idx = .rng a b := by
  intro starts
  induction starts with
  | nil =>
    intro v bf h hbf
    rw [internalFrags] at h
    have h2 : Except.ok ([] : List BaseFrag) = Except.ok v := h
    injection h2 with h3
    subst h3
    simp at hbf
  | cons start rest ih =>
    intro v bf h hbf
    rw [internalFrags] at h
    cases hinner : innerInternal seq start
        (List.range' (start + 2) (seq.length - (start + 2)))
        (skipInternalStart start mods) 0 with
    | error e =>
      rw [hinner] at h
      exact absurd h (by simp)
    | ok frs =>
      rw [hinner] at h
      cases hrec : internalFrags seq mods rest with
      | error e =>
        rw [hrec] at h
        exact absurd h (by simp)
      | ok frs2 =>
        rw [hrec] at h
        have h2 : Except.ok (frs ++ frs2) = Except.ok v := h
        injection h2 with h3
        subst h3
        rcases List.mem_append.mp hbf with hh | ht
        · exact innerInternal_shape _ _ _ _ bf hinner hh
        · exact ih _ bf hrec ht

/-- Every base fragment is a terminal fragment of a requested `abc`/`xyz`
category, an internal-range fragment, or the precursor. -/
lemma baseFragments_shape {pf : Proteoform} {its : List Char} {bfs : List BaseFrag}
    (h : baseFragments pf its = .ok bfs) (bf : BaseFrag) (hbf : bf ∈ bfs) :
    (bf.ion ∈ ['a', 'b', 'c', 'x', 'y', 'z'] ∧ ∃ i, bf.idx = .num i) ∨
    (∃ a b, bf.idx = .rng a b) ∨ bf.idx = .prec := by
  rw [baseFragments] at h
  cases hintl : (if 'm' ∈ its then
      internalFrags pf.sequence (pf.modifications.getD [])
        (List.range' 1 (pf.sequence.length - 1))
    else .ok []) with
  | error e =>
    rw [hintl] at h
    exact absurd h (by simp)
  | ok intl =>
    rw [hintl] at h
    have h2 : Except.ok (walkNCats pf.sequence
        (['a', 'b', 'c'].filter (fun c => c ∈ its)) (pf.modifications.getD []) 0 ++
        walkCCats pf.sequence (['x', 'y', 'z'].filter (fun c => c ∈ its))
          (pf.modifications.getD []).reverse 0 ++ intl ++
        (if 'p' ∈ its then [⟨pf.sequence, 'M', .prec, modMassSum (pf.modifications.getD [])⟩]
         else [])) = Except.ok bfs := h
    injection h2 with h3
    subst h3
    rcases List.mem_append.mp hbf with h4 | hprec
    · rcases List.mem_append.mp h4 with h5 | hintl2
      · rcases List.mem_append.mp h5 with hn | hc
        · obtain ⟨hion, hidx⟩ := walkNCats_shape _ _ _ bf hn
          refine Or.inl ⟨?_, hidx⟩
          have := List.mem_of_mem_filter hion
          simp at this
          rcases this with h | h | h <;> simp [h]
        · obtain ⟨hion, hidx⟩ := walkCCats_shape _ _ _ bf hc
          refine Or.inl ⟨?_, hidx⟩
          have := List.mem_of_mem_filter hion
          simp at this
          rcases this with h | h | h <;> simp [h]
      · by_cases hm : 'm' ∈ its
        · rw [if_pos hm] at hintl
          exact Or.inr (Or.inl (internalFrags_shape _ _ bf hintl hintl2))
        · rw [if_neg hm] at hintl
          have h5 : Except.ok ([] : List BaseFrag) = Except.ok intl := hintl
          injection h5 with h6
          subst h6
          simp at hintl2
    · by_cases hp : 'p' ∈ its
      · rw [if_pos hp] at hprec
        simp at hprec
        rw [hprec]
        exact Or.inr (Or.inr rfl)
      · rw [if_neg hp] at hprec
        simp at hprec

lemma expandCharges_mem_shape {bf : BaseFrag} :
    ∀ (cs : List ℕ) (v : List (FragmentAnnot × ℚ)) (e : FragmentAnnot × ℚ),
      expandCharges bf cs = .ok v → e ∈ v →
        e.1.ion_type = annotType bf.ion bf.idx ∧ e.1.neutral_loss = none := by
  intro cs
  induction cs with
  | nil =>
    intro v e h he
    rw [expandCharges] at h
    have h2 : Except.ok ([] : List (FragmentAnnot × ℚ)) = Except.ok v := h
    injection h2 with h3
    subst h3
    simp at he
  | cons c rest ih =>
    intro v e h he
    rw [expandCharges] at h
    cases hmk : mkFragmentAnnot (annotType bf.ion bf.idx) none 0 (some (c : ℤ))
        none none none with
    | error er =>
      rw [hmk] at h
      exact absurd h (by simp)
    | ok fa =>
      rw [hmk] at h
      cases hfm : fast_mass bf.fseq bf.ion c with
      | none =>
        rw [hfm] at h
        exact absurd h (by simp)
      | some m =>
        rw [hfm] at h
        cases hrest : expandCharges bf rest with
        | error er =>
          rw [hrest] at h
          exact absurd h (by simp)
        | ok vr =>
          rw [hrest] at h
          have h2 : Except.ok ((fa, m + bf.modMass / (c : ℚ)) :: vr) = Except.ok v := h
          injection h2 with h3
          subst h3
          rcases List.mem_cons.mp he with hh | ht
          · subst hh
            have hfa := mkFragmentAnnot_ok_fields hmk
            subst hfa
            exact ⟨rfl, rfl⟩
          · exact ih _ e hrest ht

lemma chargeStage_mem_shape {mc : ℕ} :
    ∀ (bfs : List BaseFrag) (v : List (FragmentAnnot × ℚ)) (e : FragmentAnnot × ℚ),
      chargeStage mc bfs = .ok v → e ∈ v →
        ∃ bf ∈ bfs, e.1.ion_type = annotType bf.ion bf.idx ∧
          e.1.neutral_loss = none := by
  intro bfs
  induction bfs with
  | nil =>
    intro v e h he
    rw [chargeStage] at h
    have h2 : Except.ok ([] : List (FragmentAnnot × ℚ)) = Except.ok v := h
    injection h2 with h3
    subst h3
    simp at he
  | cons bf bfs ih =>
    intro v e h he
    rw [chargeStage] at h
    cases h1 : expandCharges bf (List.range' 1 mc) with
    | error er =>
      rw [h1] at h
      exact absurd h (by simp)
    | ok v1 =>
      rw [h1] at h
      cases h2 : chargeStage mc bfs with
      | error er =>
        rw [h2] at h
        exact absurd h (by simp)
      | ok v2 =>
        rw [h2] at h
        have h3 : Except.ok (v1 ++ v2) = Except.ok v := h
        injection h3 with h4
        subst h4
        rcases List.mem_append.mp he with hm | hm
        · exact ⟨bf, List.mem_cons_self _ _, expandCharges_mem_shape _ _ e h1 hm⟩
        · obtain ⟨bf2, hbf2, hsh⟩ := ih _ e h2 hm
          exact ⟨bf2, List.mem_cons_of_mem _ hbf2, hsh⟩

lemma lossFragments_shape {frags : List (FragmentAnnot × ℚ)} :
    ∀ (nlEff : List (Option (List Char) × ℚ)) (L : List (FragmentAnnot × ℚ))
      (e : FragmentAnnot × ℚ),
      lossFragments frags nlEff = .ok L → e ∈ L →
        ∃ s, e.1.neutral_loss = some s := by
  have hper : ∀ (nlStr : List Char) (d : ℚ) (fs : List (FragmentAnnot × ℚ))
      (v : List (FragmentAnnot × ℚ)) (e : FragmentAnnot × ℚ),
      lossPerFrag nlStr d fs = .ok v → e ∈ v → ∃ s, e.1.neutral_loss = some s := by
    intro nlStr d fs
    induction fs with
    | nil =>
      intro v e h he
      rw [lossPerFrag] at h
      have h2 : Except.ok ([] : List (FragmentAnnot × ℚ)) = Except.ok v := h
      injection h2 with h3
      subst h3
      simp at he
    | cons g gs ih =>
      intro v e h he
      obtain ⟨gfa, gm⟩ := g
      rw [lossPerFrag] at h
      cases hmk : mkFragmentAnnot gfa.ion_type (some nlStr) 0 gfa.charge
          none none none with
      | error er =>
        rw [hmk] at h
        exact absurd h (by simp)
      | ok fa2 =>
        rw [hmk] at h
        cases hgc : gfa.charge with
        | none =>
          rw [hgc] at h
          exact absurd h (by simp)
        | some cg =>
          rw [hgc] at h
          cases hrest : lossPerFrag nlStr d gs with
          | error er =>
            rw [hrest] at h
            exact absurd h (by simp)
          | ok rest =>
            rw [hrest] at h
            have h2 : Except.ok ((fa2, gm + d / (cg : ℚ)) :: rest) = Except.ok v := h
            injection h2 with h3
            subst h3
            rcases List.mem_cons.mp he with hh | ht
            · subst hh
              have hfa := mkFragmentAnnot_ok_fields hmk
              subst hfa
              exact ⟨nlStr, rfl⟩
            · exact ih _ e hrest ht
  intro nlEff
  induction nlEff with
  | nil =>
    intro L e h he
    rw [lossFragments] at h
    have h2 : Except.ok ([] : List (FragmentAnnot × ℚ)) = Except.ok L := h
    injection h2 with h3
    subst h3
    simp at he
  | cons entry rest ih =>
    intro L e h he
    obtain ⟨opt, d'⟩ := entry
    cases opt with
    | none =>
      rw [lossFragments] at h
      exact ih _ e h he
    | some name =>
      rw [lossFragments] at h
      cases hv1 : lossPerFrag ((if d' < 0 then '-' else '+') :: name) d' frags with
      | error er =>
        rw [hv1] at h
        exact absurd h (by simp)
      | ok v1 =>
        rw [hv1] at h
        cases hv2 : lossFragments frags rest with
        | error er =>
          rw [hv2] at h
          exact absurd h (by simp)
        | ok v2 =>
          rw [hv2] at h
          have h2 : Except.ok (v1 ++ v2) = Except.ok L := h
          injection h2 with h3
          subst h3
          rcases List.mem_append.mp he with hm | hm
          · exact hper _ _ _ _ e hv1 hm
          · exact ih _ e hv2 hm

lemma preLossFragments_elim {pf : Proteoform} {its : List Char} {mc : ℕ}
    {pre : List (FragmentAnnot × ℚ)}
    (h : preLossFragments pf its mc = .ok pre) :
    ∃ bfs charged imms, baseFragments pf its = .ok bfs ∧
      chargeStage mc bfs = .ok charged ∧
      (if 'I' ∈ its then immoniumFragments aaTable else .ok []) = .ok imms ∧
      pre = charged ++ imms := by
  rw [preLossFragments] at h
  cases hb : baseFragments pf its with
  | error e =>
    rw [hb] at h
    exact absurd h (by simp)
  | ok bfs =>
    rw [hb] at h
    have h1 : (match chargeStage mc bfs with
        | Except.error e => Except.error e
        | Except.ok charged =>
          match (if 'I' ∈ its then immoniumFragments aaTable else .ok []) with
          | Except.error e => Except.error e
          | Except.ok imms => Except.ok (charged ++ imms)) = Except.ok pre := h
    cases hc : chargeStage mc bfs with
    | error e =>
      rw [hc] at h1
      exact absurd h1 (by simp)
    | ok charged =>
      rw [hc] at h1
      have h2 : (match (if 'I' ∈ its then immoniumFragments aaTable else .ok []) with
          | Except.error e => Except.error e
          | Except.ok imms => Except.ok (charged ++ imms)) = Except.ok pre := h1
      cases hi : (if 'I' ∈ its then immoniumFragments aaTable else .ok []) with
      | error e =>
        rw [hi] at h2
        exact absurd h2 (by simp)
      | ok imms =>
        rw [hi] at h2
        have h3 : Except.ok (charged ++ imms) = Except.ok pre := h2
        injection h3 with h4
        exact ⟨bfs, charged, imms, rfl, hc, rfl, h4.symm⟩

/-- The immonium stage on the full mass table produces exactly
`immoniumList`. -/
lemma immoniumFragments_eq : immoniumFragments aaTable = .ok immoniumList := by
  rfl

/-- Claim C8: when immonium ions are requested, the generator's output
contains (selected by the immonium filter: ion-type first character `I`, no
neutral loss) exactly one singly-charged entry per residue of the mass table
other than the wildcard `X`, with mass `residue mass − mass(CO) + mass(H)`,
independent of the peptide's residues. -/
theorem C8_immonium (pf : Proteoform) (its : List Char) (mc : ℕ)
    (nl : Option (List (Option (List Char) × ℚ))) (out : List (FragmentAnnot × ℚ))
    (hI : 'I' ∈ its)
    (h : get_theoretical_fragments pf its mc nl = .ok out) :
    (out.filter (fun e =>
      decide (e.1.ion_type.head? = some 'I' ∧ e.1.neutral_loss = none))).Perm
      immoniumList := by
  obtain ⟨-, -, A, hA, hout⟩ := gen_ok_elim h
  obtain ⟨pre, L, hpre, hL, hAeq⟩ := allFragments_elim hA
  obtain ⟨bfs, charged, imms, hbfs, hcharged, himms, hpreeq⟩ := preLossFragments_elim hpre
  subst hout
  subst hAeq
  subst hpreeq
  have himmval : imms = immoniumList := by
    rw [if_pos hI, immoniumFragments_eq] at himms
    injection himms with h2
    exact h2.symm
  subst himmval
  have hperm : (sortByMass (charged ++ immoniumList ++ L)).Perm
      (charged ++ immoniumList ++ L) := sortByMass_perm _
  have hch : charged.filter (fun e =>
      decide (e.1.ion_type.head? = some 'I' ∧ e.1.neutral_loss = none)) = [] := by
    rw [List.filter_eq_nil_iff]
    intro e he
    obtain ⟨bf, hbf, hion, -⟩ := chargeStage_mem_shape _ _ e hcharged he
    rcases baseFragments_shape hbfs bf hbf with ⟨hmem, i, hidx⟩ | ⟨a, b, hidx⟩ | hidx
    · rw [hidx] at hion
      simp only [annotType] at hion
      simp only [decide_eq_true_eq, not_and]
      intro hhead
      rw [hion] at hhead
      simp at hhead
      rw [hhead] at hmem
      simp at hmem
    · rw [hidx] at hion
      simp only [annotType] at hion
      simp only [decide_eq_true_eq, not_and]
      intro hhead
      rw [hion] at hhead
      simp at hhead
    · rw [hidx] at hion
      simp only [annotType] at hion
      simp only [decide_eq_true_eq, not_and]
      intro hhead
      rw [hion] at hhead
      simp at hhead
  have hLf : L.filter (fun e =>
      decide (e.1.ion_type.head? = some 'I' ∧ e.1.neutral_loss = none)) = [] := by
    rw [List.filter_eq_nil_iff]
    intro e he
    obtain ⟨s, hs⟩ := lossFragments_shape _ _ e hL he
    simp [hs]
  have hImm : immoniumList.filter (fun e =>
      decide (e.1.ion_type.head? = some 'I' ∧ e.1.neutral_loss = none)) =
      immoniumList := by
    rw [List.filter_eq_self]
    intro e he
    rw [immoniumList] at he
    obtain ⟨p, -, hpe⟩ := List.mem_map.mp he
    rw [← hpe]
    simp [mkKnown]
  have hfeq : (charged ++ immoniumList ++ L).filter (fun e =>
      decide (e.1.ion_type.head? = some 'I' ∧ e.1.neutral_loss = none)) =
      immoniumList := by
    rw [List.filter_append, List.filter_append, hch, hLf, hImm]
    simp
  have hf := hperm.filter (fun e =>
    decide (e.1.ion_type.head? = some 'I' ∧ e.1.neutral_loss = none))
  rw [hfeq] at hf
  exact hf

/-- Witness for C8: requesting `b` and `I` ions on the unmodified peptide
`PEP` yields exactly the immonium table entries under the immonium filter. -/
theorem C8_immonium_witness :
    ∃ out, get_theoretical_fragments ⟨['P', 'E', 'P'], none⟩ ['b', 'I'] 1 none =
        .ok out ∧
      (out.filter (fun e =>
        decide (e.1.ion_type.head? = some 'I' ∧ e.1.neutral_loss = none))).Perm
        immoniumList :=
  ⟨_, rfl, C8_immonium ⟨['P', 'E', 'P'], none⟩ ['b', 'I'] 1 none _ (by decide) rfl⟩

/-! ## Helper lemmas: the modification-cursor walks -/

lemma skipUnloc_cons_nterm (q : ℚ) (ms : List Modification) :
    skipUnloc (⟨.pstr ntermStr, q⟩ :: ms) = ⟨.pstr ntermStr, q⟩ :: ms := by
  simp [skipUnloc]

lemma skipUnloc_cons_cterm (q : ℚ) (ms : List Modification) :
    skipUnloc (⟨.pstr ctermStr, q⟩ :: ms) = skipUnloc ms := by
  rw [skipUnloc]
  simp only [if_neg (by decide : ¬ ctermStr = ntermStr)]

lemma skipUnloc_cons_int (i : ℕ) (q : ℚ) (ms : List Modification) :
    skipUnloc (⟨.pint i, q⟩ :: ms) = ⟨.pint i, q⟩ :: ms := by
  simp [skipUnloc]

lemma skipUnloc_cterm (l : List ℚ) : skipUnloc (ctermMods l) = [] := by
  induction l with
  | nil => rfl
  | cons q qs ih =>
    show skipUnloc (⟨.pstr ctermStr, q⟩ :: ctermMods qs) = []
    rw [skipUnloc_cons_cterm]
    exact ih

lemma foldN_cons_nterm (f : ℕ) (q : ℚ) (ms : List Modification) (acc : ℚ) :
    foldN f (⟨.pstr ntermStr, q⟩ :: ms) acc = foldN f ms (acc + q) := by
  simp [foldN]

lemma foldN_cons_cterm (f : ℕ) (q : ℚ) (ms : List Modification) (acc : ℚ) :
    foldN f (⟨.pstr ctermStr, q⟩ :: ms) acc = (⟨.pstr ctermStr, q⟩ :: ms, acc) := by
  rw [foldN]
  simp only [if_neg (by decide : ¬ ctermStr = ntermStr)]

lemma foldN_cons_int (f i : ℕ) (q : ℚ) (ms : List Modification) (acc : ℚ) :
    foldN f (⟨.pint i, q⟩ :: ms) acc =
      if i < f then foldN f ms (acc + q) else (⟨.pint i, q⟩ :: ms, acc) := by
  simp [foldN]

lemma foldN_nterm (f : ℕ) (l : List ℚ) (X : List Modification) (acc : ℚ) :
    foldN f (ntermMods l ++ X) acc = foldN f X (acc + l.sum) := by
  induction l generalizing acc with
  | nil => simp [ntermMods]
  | cons q qs ih =>
    show foldN f (⟨.pstr ntermStr, q⟩ :: (ntermMods qs ++ X)) acc = _
    rw [foldN_cons_nterm, ih]
    congr 1
    show acc + q + qs.sum = acc + (q :: qs).sum
    simp
    ring

lemma foldN_stop_cterm (f : ℕ) (l : List ℚ) (acc : ℚ) :
    foldN f (ctermMods l) acc = (ctermMods l, acc) := by
  cases l with
  | nil => rfl
  | cons q qs =>
    show foldN f (⟨.pstr ctermStr, q⟩ :: ctermMods qs) acc = _
    rw [foldN_cons_cterm]
    rfl

lemma foldN_ints (f : ℕ) (ints : List (ℕ × ℚ))
    (hs : ints.Pairwise (fun a b => a.1 ≤ b.1))
    (X : List Modification) (hX : ∀ acc, foldN f X acc = (X, acc)) (acc : ℚ) :
    foldN f (intMods ints ++ X) acc =
      (intMods (ints.filter (fun p => decide (f ≤ p.1))) ++ X,
       acc + ((ints.filter (fun p => decide (p.1 < f))).map (fun p => p.2)).sum) := by
  induction ints generalizing acc with
  | nil => simp [intMods, hX acc]
  | cons p rest ih =>
    rw [List.pairwise_cons] at hs
    show foldN f (⟨.pint p.1, p.2⟩ :: (intMods rest ++ X)) acc = _
    rw [foldN_cons_int]
    by_cases hpf : p.1 < f
    · rw [if_pos hpf, ih hs.2]
      rw [List.filter_cons, List.filter_cons]
      rw [if_neg (by simp; omega), if_pos (by simp [hpf])]
      refine congrArg _ ?_
      show acc + p.2 + _ = acc + _
      simp only [List.map_cons, List.sum_cons]
      ring
    · rw [if_neg hpf]
      have hplef : f ≤ p.1 := le_of_not_gt hpf
      have hrest1 : rest.filter (fun p => decide (f ≤ p.1)) = rest := by
        rw [List.filter_eq_self]
        intro a ha
        simp only [decide_eq_true_eq]
        exact le_trans hplef (hs.1 a ha)
      have hrest2 : rest.filter (fun p => decide (p.1 < f)) = [] := by
        rw [List.filter_eq_nil_iff]
        intro a ha
        simp only [decide_eq_true_eq, not_lt]
        exact le_trans hplef (hs.1 a ha)
      rw [List.filter_cons, List.filter_cons]
      rw [if_pos (by simp [hplef]), if_neg (by simp [hpf])]
      rw [hrest1, hrest2]
      simp [intMods]

lemma filter_ge_succ (ints : List (ℕ × ℚ)) (g : ℕ) :
    (ints.filter (fun p => decide (g ≤ p.1))).filter (fun p => decide (g + 1 ≤ p.1)) =
      ints.filter (fun p => decide (g + 1 ≤ p.1)) := by
  induction ints with
  | nil => simp
  | cons p rest ih =>
    rw [List.filter_cons]
    by_cases h1 : g ≤ p.1
    · rw [if_pos (by simp [h1])]
      rw [List.filter_cons, List.filter_cons, ih]
    · rw [if_neg (by simp [h1])]
      rw [List.filter_cons, if_neg (by simp; omega), ih]

lemma filter_ge_empty_mono {ints : List (ℕ × ℚ)} {g : ℕ}
    (h : ints.filter (fun p => decide (g ≤ p.1)) = []) :
    ints.filter (fun p => decide (g + 1 ≤ p.1)) = [] := by
  rw [List.filter_eq_nil_iff] at h ⊢
  intro a ha
  have := h a ha
  simp at this ⊢
  omega

lemma sum_lt_of_ge_empty {ints : List (ℕ × ℚ)} {g : ℕ}
    (h : ints.filter (fun p => decide (g ≤ p.1)) = []) :
    ((ints.filter (fun p => decide (p.1 < g + 1))).map (fun p => p.2)).sum =
      ((ints.filter (fun p => decide (p.1 < g))).map (fun p => p.2)).sum := by
  rw [List.filter_eq_nil_iff] at h
  have : ints.filter (fun p => decide (p.1 < g + 1)) =
      ints.filter (fun p => decide (p.1 < g)) := by
    apply List.filter_congr
    intro a ha
    have := h a ha
    simp at this ⊢
    omega
  rw [this]

lemma sum_filter_lt_succ (ints : List (ℕ × ℚ)) (g : ℕ) :
    ((ints.filter (fun p => decide (p.1 < g + 1))).map (fun p => p.2)).sum =
      ((ints.filter (fun p => decide (p.1 < g))).map (fun p => p.2)).sum +
      (((ints.filter (fun p => decide (g ≤ p.1))).filter
          (fun p => decide (p.1 < g + 1))).map (fun p => p.2)).sum := by
  induction ints with
  | nil => simp
  | cons p rest ih =>
    rw [List.filter_cons, List.filter_cons, List.filter_cons]
    by_cases h1 : p.1 < g
    · rw [if_pos (by simp; omega), if_pos (by simp [h1]), if_neg (by simp; omega)]
      simp only [List.map_cons, List.sum_cons, ih]
      ring
    · by_cases h2 : p.1 < g + 1
      · rw [if_pos (by simp [h2]), if_neg (by simp [h1]), if_pos (by simp; omega)]
        rw [List.filter_cons, if_pos (by simp [h2])]
        simp only [List.map_cons, List.sum_cons, ih]
        ring
      · rw [if_neg (by simp [h2]), if_neg (by simp [h1]), if_pos (by simp; omega)]
        rw [List.filter_cons, if_neg (by simp [h2])]
        exact ih

lemma walkN_desc (seq : List Char) (t : Char) (nts : List ℚ) (ints : List (ℕ × ℚ))
    (cts : List ℚ) (hs : ints.Pairwise (fun a b => a.1 ≤ b.1)) :
    ∀ (k g : ℕ), 1 ≤ g →
      ∀ (rem : List Modification) (acc : ℚ),
      (rem = intMods (ints.filter (fun p => decide (g ≤ p.1))) ++ ctermMods cts ∨
        (ints.filter (fun p => decide (g ≤ p.1)) = [] ∧ rem = [])) →
      acc = nts.sum + ((ints.filter (fun p => decide (p.1 < g))).map (fun p => p.2)).sum →
      (walkN seq t (List.range' (g + 1) k) rem acc).1 =
        (List.range' (g + 1) k).map (fun f => ⟨seq.take f, t, .num f,
          nts.sum + ((ints.filter (fun p => decide (p.1 < f))).map (fun p => p.2)).sum⟩) := by
  intro k
  induction k with
  | zero =>
    intro g hg rem acc hrem hacc
    simp [walkN]
  | succ k ih =>
    intro g hg rem acc hrem hacc
    rw [List.range'_succ]
    simp only [walkN, List.map_cons]
    rcases hrem with hrem | ⟨hGE, hrem⟩
    · rcases hGEcase : ints.filter (fun p => decide (g ≤ p.1)) with _ | ⟨d, ds⟩
      · -- no integer-positioned modifications remain: the cursor skips the
        -- C-terminal block and the fold is a no-op
        rw [hGEcase] at hrem
        simp only [intMods, List.map_nil, List.nil_append] at hrem
        subst hrem
        rw [skipUnloc_cterm]
        have hfold : foldN (g + 1) [] acc = ([], acc) := rfl
        rw [hfold]
        have hsum : acc = nts.sum +
            ((ints.filter (fun p => decide (p.1 < g + 1))).map (fun p => p.2)).sum := by
          rw [sum_lt_of_ge_empty hGEcase]
          exact hacc
        congr 1
        · exact congrArg (fun m =>
            (⟨List.take (g + 1) seq, t, FragIdx.num (g + 1), m⟩ : BaseFrag)) hsum
        · exact ih (g + 1) (by omega) [] acc
            (Or.inr ⟨filter_ge_empty_mono hGEcase, rfl⟩) hsum
      · rw [hGEcase] at hrem
        subst hrem
        have hskip : skipUnloc (intMods (d :: ds) ++ ctermMods cts) =
            intMods (d :: ds) ++ ctermMods cts := by
          show skipUnloc (⟨.pint d.1, d.2⟩ :: (intMods ds ++ ctermMods cts)) = _
          rw [skipUnloc_cons_int]
          rfl
        rw [hskip, ← hGEcase]
        rw [foldN_ints (g + 1) _ (hs.sublist (List.filter_sublist _))
          (ctermMods cts) (foldN_stop_cterm (g + 1) cts) acc]
        rw [filter_ge_succ]
        have hsum : acc + (((ints.filter (fun p => decide (g ≤ p.1))).filter
            (fun p => decide (p.1 < g + 1))).map (fun p => p.2)).sum =
            nts.sum + ((ints.filter (fun p => decide (p.1 < g + 1))).map
              (fun p => p.2)).sum := by
          rw [sum_filter_lt_succ ints g, hacc]
          ring
        congr 1
        · exact congrArg (fun m =>
            (⟨List.take (g + 1) seq, t, FragIdx.num (g + 1), m⟩ : BaseFrag)) hsum
        · exact ih (g + 1) (by omega) _ _ (Or.inl rfl) hsum
    · subst hrem
      have hfold : foldN (g + 1) (skipUnloc []) acc = ([], acc) := rfl
      rw [hfold]
      have hsum : acc = nts.sum +
          ((ints.filter (fun p => decide (p.1 < g + 1))).map (fun p => p.2)).sum := by
        rw [sum_lt_of_ge_empty hGE]
        exact hacc
      congr 1
      · exact congrArg (fun m =>
          (⟨List.take (g + 1) seq, t, FragIdx.num (g + 1), m⟩ : BaseFrag)) hsum
      · exact ih (g + 1) (by omega) [] acc
          (Or.inr ⟨filter_ge_empty_mono hGE, rfl⟩) hsum

/-- The full N-terminal walk over a position-sorted modification list
(`N-term` entries first, integer positions in nondecreasing order, `C-term`
entries last) emits, for each cleavage index `f`, the prefix fragment whose
accumulated modification mass is the sum of the `N-term` masses plus the
masses at integer positions strictly below `f`. -/
lemma walkN_full (seq : List Char) (t : Char) (nts : List ℚ) (ints : List (ℕ × ℚ))
    (cts : List ℚ) (hs : ints.Pairwise (fun a b => a.1 ≤ b.1)) (k : ℕ) :
    (walkN seq t (List.range' 1 k)
        (ntermMods nts ++ intMods ints ++ ctermMods cts) 0).1 =
      (List.range' 1 k).map (fun f => ⟨seq.take f, t, .num f,
        nts.sum + ((ints.filter (fun p => decide (p.1 < f))).map (fun p => p.2)).sum⟩) := by
  cases k with
  | zero => simp [walkN]
  | succ k =>
    rw [List.range'_succ]
    simp only [walkN, List.map_cons]
    by_cases hnil : nts = [] ∧ ints = []
    · obtain ⟨hn, hi⟩ := hnil
      subst hn
      subst hi
      simp only [ntermMods, intMods, List.map_nil, List.nil_append]
      rw [skipUnloc_cterm]
      have hfold : foldN 1 [] (0 : ℚ) = ([], 0) := rfl
      rw [hfold]
      congr 1
      · show (⟨List.take 1 seq, t, FragIdx.num 1, (0 : ℚ)⟩ : BaseFrag) = _
        simp
      · rw [walkN_desc seq t [] [] cts (by simp) k 1 (by omega) [] 0
          (Or.inr ⟨by simp, rfl⟩) (by simp)]
    · have hskip : skipUnloc (ntermMods nts ++ intMods ints ++ ctermMods cts) =
          ntermMods nts ++ intMods ints ++ ctermMods cts := by
        cases hn : nts with
        | cons q qs =>
          show skipUnloc (⟨.pstr ntermStr, q⟩ :: (ntermMods qs ++ intMods ints ++ ctermMods cts)) = _
          rw [skipUnloc_cons_nterm]
          rfl
        | nil =>
          cases hi : ints with
          | cons d ds =>
            show skipUnloc (⟨.pint d.1, d.2⟩ :: (intMods ds ++ ctermMods cts)) = _
            rw [skipUnloc_cons_int]
            rfl
          | nil => exact absurd ⟨hn, hi⟩ hnil
      rw [hskip]
      rw [List.append_assoc, foldN_nterm, foldN_ints 1 ints hs (ctermMods cts)
        (foldN_stop_cterm 1 cts) (0 + nts.sum)]
      have hsum : 0 + nts.sum + ((ints.filter (fun p => decide (p.1 < 1))).map
          (fun p => p.2)).sum =
          nts.sum + ((ints.filter (fun p => decide (p.1 < 1))).map (fun p => p.2)).sum := by
        ring
      congr 1
      · exact congrArg (fun m =>
          (⟨List.take 1 seq, t, FragIdx.num 1, m⟩ : BaseFrag)) hsum
      · exact walkN_desc seq t nts ints cts hs k 1 (by omega) _ _ (Or.inl rfl) hsum

lemma foldC_cons_cterm (f : ℕ) (q : ℚ) (ms : List Modification) (acc : ℚ) :
    foldC f (⟨.pstr ctermStr, q⟩ :: ms) acc = foldC f ms (acc + q) := by
  simp [foldC]

lemma foldC_cons_nterm (f : ℕ) (q : ℚ) (ms : List Modification) (acc : ℚ) :
    foldC f (⟨.pstr ntermStr, q⟩ :: ms) acc = (⟨.pstr ntermStr, q⟩ :: ms, acc) := by
  rw [foldC]
  simp only [if_neg (by decide : ¬ ntermStr = ctermStr)]

lemma foldC_cons_int (f i : ℕ) (q : ℚ) (ms : List Modification) (acc : ℚ) :
    foldC f (⟨.pint i, q⟩ :: ms) acc =
      if f ≤ i then foldC f ms (acc + q) else (⟨.pint i, q⟩ :: ms, acc) := by
  simp [foldC]

lemma foldC_cterm (f : ℕ) (l : List ℚ) (X : List Modification) (acc : ℚ) :
    foldC f (ctermMods l ++ X) acc = foldC f X (acc + l.sum) := by
  induction l generalizing acc with
  | nil => simp [ctermMods]
  | cons q qs ih =>
    show foldC f (⟨.pstr ctermStr, q⟩ :: (ctermMods qs ++ X)) acc = _
    rw [foldC_cons_cterm, ih]
    congr 1
    show acc + q + qs.sum = acc + (q :: qs).sum
    simp
    ring

lemma foldC_stop_nterm (f : ℕ) (l : List ℚ) (acc : ℚ) :
    foldC f (ntermMods l) acc = (ntermMods l, acc) := by
  cases l with
  | nil => rfl
  | cons q qs =>
    show foldC f (⟨.pstr ntermStr, q⟩ :: ntermMods qs) acc = _
    rw [foldC_cons_nterm]
    rfl

lemma foldC_ints (f : ℕ) (ints : List (ℕ × ℚ))
    (hs : ints.Pairwise (fun a b => b.1 ≤ a.1))
    (X : List Modification) (hX : ∀ acc, foldC f X acc = (X, acc)) (acc : ℚ) :
    foldC f (intMods ints ++ X) acc =
      (intMods (ints.filter (fun p => decide (p.1 < f))) ++ X,
       acc + ((ints.filter (fun p => decide (f ≤ p.1))).map (fun p => p.2)).sum) := by
  induction ints generalizing acc with
  | nil => simp [intMods, hX acc]
  | cons p rest ih =>
    rw [List.pairwise_cons] at hs
    show foldC f (⟨.pint p.1, p.2⟩ :: (intMods rest ++ X)) acc = _
    rw [foldC_cons_int]
    by_cases hpf : f ≤ p.1
    · rw [if_pos hpf, ih hs.2]
      rw [List.filter_cons, List.filter_cons]
      rw [if_neg (by simp; omega), if_pos (by simp [hpf])]
      refine congrArg _ ?_
      show acc + p.2 + _ = acc + _
      simp only [List.map_cons, List.sum_cons]
      ring
    · rw [if_neg hpf]
      have hplt : p.1 < f := lt_of_not_ge hpf
      have hrest1 : rest.filter (fun p => decide (p.1 < f)) = rest := by
        rw [List.filter_eq_self]
        intro a ha
        simp only [decide_eq_true_eq]
        exact lt_of_le_of_lt (hs.1 a ha) hplt
      have hrest2 : rest.filter (fun p => decide (f ≤ p.1)) = [] := by
        rw [List.filter_eq_nil_iff]
        intro a ha
        simp only [decide_eq_true_eq, not_le]
        exact lt_of_le_of_lt (hs.1 a ha) hplt
      rw [List.filter_cons, List.filter_cons]
      rw [if_pos (by simp [hplt]), if_neg (by simp [hpf])]
      rw [hrest1, hrest2]
      simp [intMods]

lemma filter_le_lt (l : List (ℕ × ℚ)) (m : ℕ) :
    (l.filter (fun p => decide (p.1 ≤ m + 1))).filter (fun p => decide (p.1 < m + 1)) =
      l.filter (fun p => decide (p.1 ≤ m)) := by
  induction l with
  | nil => simp
  | cons p rest ih =>
    rw [List.filter_cons]
    by_cases h1 : p.1 ≤ m + 1
    · rw [if_pos (by simp [h1])]
      rw [List.filter_cons, List.filter_cons]
      by_cases h2 : p.1 ≤ m
      · rw [if_pos (by simp; omega), if_pos (by simp [h2]), ih]
      · rw [if_neg (by simp; omega), if_neg (by simp [h2]), ih]
    · rw [if_neg (by simp [h1])]
      rw [List.filter_cons, if_neg (by simp; omega), ih]

lemma sum_filter_ge_succ (l : List (ℕ × ℚ)) (g : ℕ) :
    ((l.filter (fun p => decide (g ≤ p.1))).map (fun p => p.2)).sum =
      ((l.filter (fun p => decide (g + 1 ≤ p.1))).map (fun p => p.2)).sum +
      (((l.filter (fun p => decide (p.1 ≤ g))).filter
          (fun p => decide (g ≤ p.1))).map (fun p => p.2)).sum := by
  induction l with
  | nil => simp
  | cons p rest ih =>
    rw [List.filter_cons, List.filter_cons, List.filter_cons]
    by_cases h1 : g + 1 ≤ p.1
    · rw [if_pos (by simp; omega), if_pos (by simp [h1]), if_neg (by simp; omega)]
      simp only [List.map_cons, List.sum_cons, ih]
      ring
    · by_cases h2 : g ≤ p.1
      · rw [if_pos (by simp [h2]), if_neg (by simp [h1]), if_pos (by simp; omega)]
        rw [List.filter_cons, if_pos (by simp [h2])]
        simp only [List.map_cons, List.sum_cons, ih]
        ring
      · rw [if_neg (by simp [h2]), if_neg (by simp [h1]), if_pos (by simp; omega)]
        rw [List.filter_cons, if_neg (by simp [h2])]
        exact ih

lemma sum_map_filter_reverse (l : List (ℕ × ℚ)) (p : ℕ × ℚ → Bool) :
    ((l.reverse.filter p).map (fun x => x.2)).sum =
      ((l.filter p).map (fun x => x.2)).sum := by
  rw [List.filter_reverse, List.map_reverse, List.sum_reverse]

lemma mods_reverse (nts : List ℚ) (ints : List (ℕ × ℚ)) (cts : List ℚ) :
    (ntermMods nts ++ intMods ints ++ ctermMods cts).reverse =
      ctermMods cts.reverse ++ intMods ints.reverse ++ ntermMods nts.reverse := by
  simp [ntermMods, intMods, ctermMods, List.map_reverse]

lemma range'_reverse_succ (m : ℕ) :
    (List.range' 1 (m + 1)).reverse = (m + 1) :: (List.range' 1 m).reverse := by
  have h : List.range' 1 (m + 1) = List.range' 1 m ++ [1 + m] := by
    have h2 := @List.range'_concat 1 1 m
    simpa using h2
  rw [h, List.reverse_append]
  simp [Nat.add_comm]

lemma sum_map_filter2_reverse (l : List (ℕ × ℚ)) (p q : ℕ × ℚ → Bool) :
    (((l.reverse.filter p).filter q).map (fun x => x.2)).sum =
      (((l.filter p).filter q).map (fun x => x.2)).sum := by
  rw [List.filter_reverse, List.filter_reverse, List.map_reverse, List.sum_reverse]

lemma walkC_desc (seq : List Char) (t : Char) (nts : List ℚ) (ints : List (ℕ × ℚ))
    (cts : List ℚ) (hs : ints.Pairwise (fun a b => a.1 ≤ b.1)) :
    ∀ (m : ℕ) (rem : List Modification) (acc : ℚ),
      rem = intMods (ints.reverse.filter (fun p => decide (p.1 ≤ m))) ++
        ntermMods nts.reverse →
      acc = cts.sum +
        ((ints.filter (fun p => decide (m + 1 ≤ p.1))).map (fun p => p.2)).sum →
      (walkC seq t ((List.range' 1 m).reverse) rem acc).1 =
        ((List.range' 1 m).reverse).map (fun f => ⟨seq.drop f, t, .num (seq.length - f),
          cts.sum + ((ints.filter (fun p => decide (f ≤ p.1))).map (fun p => p.2)).sum⟩) := by
  intro m
  induction m with
  | zero =>
    intro rem acc hrem hacc
    simp [walkC]
  | succ m ih =>
    intro rem acc hrem hacc
    rw [range'_reverse_succ]
    simp only [walkC, List.map_cons]
    subst hrem
    have hdesc : (ints.reverse.filter (fun p => decide (p.1 ≤ m + 1))).Pairwise
        (fun a b => b.1 ≤ a.1) := by
      refine List.Pairwise.sublist (List.filter_sublist _) ?_
      exact (List.pairwise_reverse).mpr hs
    rw [foldC_ints (m + 1) _ hdesc (ntermMods nts.reverse)
      (foldC_stop_nterm (m + 1) nts.reverse) acc]
    rw [filter_le_lt]
    have hsum : acc + (((ints.reverse.filter (fun p => decide (p.1 ≤ m + 1))).filter
        (fun p => decide (m + 1 ≤ p.1))).map (fun p => p.2)).sum =
        cts.sum + ((ints.filter (fun p => decide (m + 1 ≤ p.1))).map
          (fun p => p.2)).sum := by
      rw [sum_map_filter2_reverse, hacc, sum_filter_ge_succ ints (m + 1)]
      ring
    congr 1
    · exact congrArg (fun w =>
        (⟨List.drop (m + 1) seq, t, FragIdx.num (seq.length - (m + 1)), w⟩ : BaseFrag)) hsum
    · exact ih _ _ rfl hsum

lemma walkC_full (seq : List Char) (t : Char) (nts : List ℚ) (ints : List (ℕ × ℚ))
    (cts : List ℚ) (hs : ints.Pairwise (fun a b => a.1 ≤ b.1)) (k : ℕ) :
    (walkC seq t ((List.range' 1 k).reverse)
        ((ntermMods nts ++ intMods ints ++ ctermMods cts).reverse) 0).1 =
      ((List.range' 1 k).reverse).map (fun f => ⟨seq.drop f, t, .num (seq.length - f),
        cts.sum + ((ints.filter (fun p => decide (f ≤ p.1))).map (fun p => p.2)).sum⟩) := by
  cases k with
  | zero => simp [walkC]
  | succ k =>
    rw [range'_reverse_succ]
    simp only [walkC, List.map_cons]
    rw [mods_reverse, List.append_assoc, foldC_cterm]
    have hdesc : ints.reverse.Pairwise (fun a b => b.1 ≤ a.1) :=
      (List.pairwise_reverse).mpr hs
    rw [foldC_ints (k + 1) ints.reverse hdesc (ntermMods nts.reverse)
      (foldC_stop_nterm (k + 1) nts.reverse) (0 + cts.reverse.sum)]
    have hfilt : ints.reverse.filter (fun p => decide (p.1 < k + 1)) =
        ints.reverse.filter (fun p => decide (p.1 ≤ k)) := by
      apply List.filter_congr
      intro a ha
      simp
      omega
    have hsum : 0 + cts.reverse.sum + ((ints.reverse.filter
        (fun p => decide (k + 1 ≤ p.1))).map (fun p => p.2)).sum =
        cts.sum + ((ints.filter (fun p => decide (k + 1 ≤ p.1))).map
          (fun p => p.2)).sum := by
      rw [sum_map_filter_reverse, List.sum_reverse]
      ring
    congr 1
    · exact congrArg (fun w =>
        (⟨List.drop (k + 1) seq, t, FragIdx.num (seq.length - (k + 1)), w⟩ : BaseFrag)) hsum
    · rw [hfilt] at *
      exact walkC_desc seq t nts ints cts hs k _ _ rfl hsum

lemma filter_map_comm {α β : Type} (g : α → β) (p : β → Bool) (l : List α) :
    (l.map g).filter p = (l.filter (fun a => p (g a))).map g := by
  induction l with
  | nil => rfl
  | cons a rest ih =>
    rw [List.map_cons, List.filter_cons, List.filter_cons]
    by_cases h : p (g a)
    · rw [if_pos h, if_pos h, List.map_cons, ih]
    · rw [if_neg h, if_neg h, ih]

lemma claimSumN_decomp (nts : List ℚ) (ints : List (ℕ × ℚ)) (cts : List ℚ) (f : ℕ) :
    claimSumN (ntermMods nts ++ intMods ints ++ ctermMods cts) f =
      nts.sum + ((ints.filter (fun p => decide (p.1 < f))).map (fun p => p.2)).sum := by
  have h1 : (ntermMods nts).filter (fun m => posQualN f m.position) = ntermMods nts := by
    rw [List.filter_eq_self]
    intro m hm
    rw [ntermMods] at hm
    obtain ⟨q, -, rfl⟩ := List.mem_map.mp hm
    simp [posQualN]
  have h2 : (intMods ints).filter (fun m => posQualN f m.position) =
      intMods (ints.filter (fun p => decide (p.1 < f))) := by
    rw [intMods, filter_map_comm]
    rfl
  have h3 : (ctermMods cts).filter (fun m => posQualN f m.position) = [] := by
    rw [List.filter_eq_nil_iff]
    intro m hm
    rw [ctermMods] at hm
    obtain ⟨q, -, rfl⟩ := List.mem_map.mp hm
    simp only [posQualN]
    decide
  rw [claimSumN, modMassSum, List.filter_append, List.filter_append, h1, h2, h3]
  rw [List.append_nil, List.map_append, List.sum_append]
  congr 1
  · rw [ntermMods, List.map_map]
    exact congrArg List.sum (List.map_id' nts)
  · rw [intMods, List.map_map]
    rfl

lemma claimSumC_decomp (nts : List ℚ) (ints : List (ℕ × ℚ)) (cts : List ℚ) (f : ℕ) :
    claimSumC (ntermMods nts ++ intMods ints ++ ctermMods cts) f =
      cts.sum + ((ints.filter (fun p => decide (f ≤ p.1))).map (fun p => p.2)).sum := by
  have h1 : (ntermMods nts).filter (fun m => posQualC f m.position) = [] := by
    rw [List.filter_eq_nil_iff]
    intro m hm
    rw [ntermMods] at hm
    obtain ⟨q, -, rfl⟩ := List.mem_map.mp hm
    simp only [posQualC]
    decide
  have h2 : (intMods ints).filter (fun m => posQualC f m.position) =
      intMods (ints.filter (fun p => decide (f ≤ p.1))) := by
    rw [intMods, filter_map_comm]
    rfl
  have h3 : (ctermMods cts).filter (fun m => posQualC f m.position) = ctermMods cts := by
    rw [List.filter_eq_self]
    intro m hm
    rw [ctermMods] at hm
    obtain ⟨q, -, rfl⟩ := List.mem_map.mp hm
    simp [posQualC]
  rw [claimSumC, modMassSum, List.filter_append, List.filter_append, h1, h2, h3]
  rw [List.nil_append, List.map_append, List.sum_append]
  rw [add_comm]
  congr 1
  · rw [ctermMods, List.map_map]
    exact congrArg List.sum (List.map_id' cts)
  · rw [intMods, List.map_map]
    rfl

lemma expandCharges_ok_eq {bf : BaseFrag} :
    ∀ (cs : List ℕ) (v : List (FragmentAnnot × ℚ)), expandCharges bf cs = .ok v →
      v = cs.map (fun (c : ℕ) => (mkKnown (annotType bf.ion bf.idx) (c : ℤ),
        fastMassD bf.fseq bf.ion c + bf.modMass / (c : ℚ))) := by
  intro cs
  induction cs with
  | nil =>
    intro v h
    rw [expandCharges] at h
    have h2 : Except.ok ([] : List (FragmentAnnot × ℚ)) = Except.ok v := h
    injection h2 with h3
    exact h3.symm
  | cons c rest ih =>
    intro v h
    rw [expandCharges] at h
    cases hmk : mkFragmentAnnot (annotType bf.ion bf.idx) none 0 (some (c : ℤ))
        none none none with
    | error er =>
      rw [hmk] at h
      exact absurd h (by simp)
    | ok fa =>
      rw [hmk] at h
      cases hfm : fast_mass bf.fseq bf.ion c with
      | none =>
        rw [hfm] at h
        exact absurd h (by simp)
      | some m =>
        rw [hfm] at h
        cases hrest : expandCharges bf rest with
        | error er =>
          rw [hrest] at h
          exact absurd h (by simp)
        | ok vr =>
          rw [hrest] at h
          have h2 : Except.ok ((fa, m + bf.modMass / (c : ℚ)) :: vr) = Except.ok v := h
          injection h2 with h3
          subst h3
          rw [List.map_cons, ih vr hrest]
          have hfa := mkFragmentAnnot_ok_fields hmk
          subst hfa
          have hm : m = fastMassD bf.fseq bf.ion c := by
            rw [fastMassD, hfm]
            rfl
          rw [hm]
          rfl

lemma chargeStage_ok_eq {mc : ℕ} :
    ∀ (bfs : List BaseFrag) (v : List (FragmentAnnot × ℚ)),
      chargeStage mc bfs = .ok v →
      v = bfs.flatMap (fun bf => (List.range' 1 mc).map
        (fun (c : ℕ) => (mkKnown (annotType bf.ion bf.idx) (c : ℤ),
          fastMassD bf.fseq bf.ion c + bf.modMass / (c : ℚ)))) := by
  intro bfs
  induction bfs with
  | nil =>
    intro v h
    rw [chargeStage] at h
    have h2 : Except.ok ([] : List (FragmentAnnot × ℚ)) = Except.ok v := h
    injection h2 with h3
    exact h3.symm
  | cons bf rest ih =>
    intro v h
    rw [chargeStage] at h
    cases h1 : expandCharges bf (List.range' 1 mc) with
    | error er =>
      rw [h1] at h
      exact absurd h (by simp)
    | ok v1 =>
      rw [h1] at h
      cases h2 : chargeStage mc rest with
      | error er =>
        rw [h2] at h
        exact absurd h (by simp)
      | ok v2 =>
        rw [h2] at h
        have h3 : Except.ok (v1 ++ v2) = Except.ok v := h
        injection h3 with h4
        subst h4
        rw [List.flatMap_cons, expandCharges_ok_eq _ _ h1, ih _ h2]

lemma baseFragments_elim {pf : Proteoform} {its : List Char} {bfs : List BaseFrag}
    (h : baseFragments pf its = .ok bfs) :
    ∃ intl, (if 'm' ∈ its then
        internalFrags pf.sequence (pf.modifications.getD [])
          (List.range' 1 (pf.sequence.length - 1))
      else .ok []) = .ok intl ∧
      bfs = walkNCats pf.sequence (['a', 'b', 'c'].filter (fun c => c ∈ its))
          (pf.modifications.getD []) 0 ++
        walkCCats pf.sequence (['x', 'y', 'z'].filter (fun c => c ∈ its))
          (pf.modifications.getD []).reverse 0 ++ intl ++
        (if 'p' ∈ its then
          [⟨pf.sequence, 'M', .prec, modMassSum (pf.modifications.getD [])⟩]
         else []) := by
  rw [baseFragments] at h
  cases hintl : (if 'm' ∈ its then
      internalFrags pf.sequence (pf.modifications.getD [])
        (List.range' 1 (pf.sequence.length - 1))
    else .ok []) with
  | error e =>
    rw [hintl] at h
    exact absurd h (by simp)
  | ok intl =>
    rw [hintl] at h
    have h2 : Except.ok (walkNCats pf.sequence
        (['a', 'b', 'c'].filter (fun c => c ∈ its)) (pf.modifications.getD []) 0 ++
        walkCCats pf.sequence (['x', 'y', 'z'].filter (fun c => c ∈ its))
          (pf.modifications.getD []).reverse 0 ++ intl ++
        (if 'p' ∈ its then
          [⟨pf.sequence, 'M', .prec, modMassSum (pf.modifications.getD [])⟩]
         else [])) = Except.ok bfs := h
    injection h2 with h3
    exact ⟨intl, rfl, h3.symm⟩

lemma walkNCats_single (seq : List Char) (t : Char) (mods : List Modification) :
    walkNCats seq [t] mods 0 =
      (walkN seq t (List.range' 1 (seq.length - 1)) mods 0).1 := by
  rw [walkNCats, walkNCats, List.append_nil]

lemma walkCCats_single (seq : List Char) (t : Char) (mods : List Modification) :
    walkCCats seq [t] mods 0 =
      (walkC seq t (List.range' 1 (seq.length - 1)).reverse mods 0).1 := by
  rw [walkCCats, walkCCats, List.append_nil]

lemma flatMap_map' {α β γ : Type} (f : α → β) (g : β → List γ) (l : List α) :
    (l.map f).flatMap g = l.flatMap (fun a => g (f a)) := by
  induction l with
  | nil => rfl
  | cons a rest ih => simp [ih]

lemma entriesOfCat_append (t : Char) (l1 l2 : List (FragmentAnnot × ℚ)) :
    entriesOfCat t (l1 ++ l2) = entriesOfCat t l1 ++ entriesOfCat t l2 := by
  rw [entriesOfCat, entriesOfCat, entriesOfCat, List.filter_append]

lemma entriesOfCat_flatMap_none {mc : ℕ} (t : Char) (bfs : List BaseFrag)
    (hion : ∀ bf ∈ bfs, (annotType bf.ion bf.idx).head? ≠ some t) :
    entriesOfCat t (bfs.flatMap (fun bf => (List.range' 1 mc).map
      (fun (c : ℕ) => (mkKnown (annotType bf.ion bf.idx) (c : ℤ),
        fastMassD bf.fseq bf.ion c + bf.modMass / (c : ℚ))))) = [] := by
  rw [entriesOfCat, List.filter_eq_nil_iff]
  intro e he
  obtain ⟨bf, hbf, hin⟩ := List.mem_flatMap.mp he
  obtain ⟨c, -, rfl⟩ := List.mem_map.mp hin
  simp only [mkKnown, decide_eq_true_eq, not_and]
  intro hh
  exact absurd hh (hion bf hbf)

lemma entriesOfCat_flatMap_all {mc : ℕ} (t : Char) (bfs : List BaseFrag)
    (hion : ∀ bf ∈ bfs, (annotType bf.ion bf.idx).head? = some t) :
    entriesOfCat t (bfs.flatMap (fun bf => (List.range' 1 mc).map
      (fun (c : ℕ) => (mkKnown (annotType bf.ion bf.idx) (c : ℤ),
        fastMassD bf.fseq bf.ion c + bf.modMass / (c : ℚ))))) =
      bfs.flatMap (fun bf => (List.range' 1 mc).map
        (fun (c : ℕ) => (mkKnown (annotType bf.ion bf.idx) (c : ℤ),
          fastMassD bf.fseq bf.ion c + bf.modMass / (c : ℚ)))) := by
  rw [entriesOfCat, List.filter_eq_self]
  intro e he
  obtain ⟨bf, hbf, hin⟩ := List.mem_flatMap.mp he
  obtain ⟨c, -, rfl⟩ := List.mem_map.mp hin
  simp only [mkKnown, decide_eq_true_eq]
  exact ⟨hion bf hbf, trivial⟩

lemma annotType_num (ik : Char) (i : ℕ) : annotType ik (.num i) = ik :: natDigits i := rfl

lemma abc_xyz_disjoint :
    ∀ u ∈ (['x', 'y', 'z'] : List Char), ∀ t ∈ (['a', 'b', 'c'] : List Char), u ≠ t := by
  decide

lemma xyz_abc_disjoint :
    ∀ u ∈ (['a', 'b', 'c'] : List Char), ∀ t ∈ (['x', 'y', 'z'] : List Char), u ≠ t := by
  decide

lemma abc_not_special :
    ∀ t ∈ (['a', 'b', 'c'] : List Char), t ≠ 'm' ∧ t ≠ 'p' ∧ t ≠ 'I' := by
  decide

lemma xyz_not_special :
    ∀ t ∈ (['x', 'y', 'z'] : List Char), t ≠ 'm' ∧ t ≠ 'p' ∧ t ≠ 'I' := by
  decide

lemma entriesOfCat_sort (t : Char) (l : List (FragmentAnnot × ℚ)) :
    (entriesOfCat t (sortByMass l)).Perm (entriesOfCat t l) :=
  (sortByMass_perm l).filter _

lemma terminal_cats_perm (seq : List Char) (om : Option (List Modification))
    (nts : List ℚ) (ints : List (ℕ × ℚ)) (cts : List ℚ)
    (hs : ints.Pairwise (fun a b => a.1 ≤ b.1))
    (hom : om.getD [] = ntermMods nts ++ intMods ints ++ ctermMods cts)
    (its : List Char) (mc : ℕ) (nl : Option (List (Option (List Char) × ℚ)))
    (out : List (FragmentAnnot × ℚ))
    (h : get_theoretical_fragments ⟨seq, om⟩ its mc nl = .ok out) :
    (∀ t, ['a', 'b', 'c'].filter (fun c => c ∈ its) = [t] →
      (entriesOfCat t out).Perm ((List.range' 1 (seq.length - 1)).flatMap (fun f =>
        (List.range' 1 mc).map (fun (c : ℕ) => (mkKnown (t :: natDigits f) (c : ℤ),
          fastMassD (seq.take f) t c + claimSumN (om.getD []) f / (c : ℚ)))))) ∧
    (∀ t, ['x', 'y', 'z'].filter (fun c => c ∈ its) = [t] →
      (entriesOfCat t out).Perm (((List.range' 1 (seq.length - 1)).reverse).flatMap (fun f =>
        (List.range' 1 mc).map (fun (c : ℕ) => (mkKnown (t :: natDigits (seq.length - f)) (c : ℤ),
          fastMassD (seq.drop f) t c + claimSumC (om.getD []) f / (c : ℚ)))))) := by
  obtain ⟨-, -, A, hA, hout⟩ := gen_ok_elim h
  obtain ⟨pre, L, hpre, hL, hAeq⟩ := allFragments_elim hA
  obtain ⟨bfs, charged, imms, hbfs, hcharged, himms, hpreeq⟩ := preLossFragments_elim hpre
  obtain ⟨intl, hintl, hbfseq⟩ := baseFragments_elim hbfs
  subst hout
  subst hAeq
  subst hpreeq
  have hchv := chargeStage_ok_eq bfs charged hcharged
  subst hchv
  subst hbfseq
  have hLfilter : ∀ t, entriesOfCat t L = [] := by
    intro t
    rw [entriesOfCat, List.filter_eq_nil_iff]
    intro e he
    obtain ⟨s, hs2⟩ := lossFragments_shape _ _ e hL he
    simp [hs2]
  have hImmFilter : ∀ t, t ≠ 'I' → entriesOfCat t imms = [] := by
    intro t ht
    by_cases hI : 'I' ∈ its
    · rw [if_pos hI, immoniumFragments_eq] at himms
      injection himms with h2
      subst h2
      rw [entriesOfCat, List.filter_eq_nil_iff]
      intro e he
      rw [immoniumList] at he
      obtain ⟨p, -, rfl⟩ := List.mem_map.mp he
      simp only [decide_eq_true_eq]
      intro hab
      have h1 := hab.1
      simp only [mkKnown, List.head?_cons, Option.some.injEq] at h1
      exact ht h1.symm
    · rw [if_neg hI] at himms
      injection himms with h2
      subst h2
      rfl
  constructor
  · -- N-terminal clause
    intro t habc
    have ht0 : t ∈ ['a', 'b', 'c'].filter (fun c => c ∈ its) := by
      rw [habc]
      exact List.mem_cons_self _ _
    have htl := (List.mem_filter.mp ht0).1
    have hcs : ∀ f, claimSumN (om.getD []) f =
        nts.sum + ((ints.filter (fun p => decide (p.1 < f))).map (fun p => p.2)).sum := by
      intro f
      rw [hom, claimSumN_decomp]
    simp only [hcs]
    refine (entriesOfCat_sort t _).trans ?_
    rw [entriesOfCat_append, entriesOfCat_append, hLfilter t,
      hImmFilter t (abc_not_special t htl).2.2]
    rw [List.flatMap_append, List.flatMap_append, List.flatMap_append]
    rw [entriesOfCat_append, entriesOfCat_append, entriesOfCat_append]
    have hcpart : entriesOfCat t ((walkCCats seq
        (['x', 'y', 'z'].filter (fun c => c ∈ its)) (om.getD []).reverse 0).flatMap
          (fun bf => (List.range' 1 mc).map
            (fun (c : ℕ) => (mkKnown (annotType bf.ion bf.idx) (c : ℤ),
              fastMassD bf.fseq bf.ion c + bf.modMass / (c : ℚ))))) = [] := by
      apply entriesOfCat_flatMap_none
      intro bf hbf
      obtain ⟨hion, i, hidx⟩ := walkCCats_shape _ _ _ bf hbf
      rw [hidx, annotType_num]
      simp only [List.head?_cons, ne_eq, Option.some.injEq]
      exact abc_xyz_disjoint bf.ion (List.mem_of_mem_filter hion) t htl
    have hipart : entriesOfCat t (intl.flatMap
        (fun bf => (List.range' 1 mc).map
          (fun (c : ℕ) => (mkKnown (annotType bf.ion bf.idx) (c : ℤ),
            fastMassD bf.fseq bf.ion c + bf.modMass / (c : ℚ))))) = [] := by
      apply entriesOfCat_flatMap_none
      intro bf hbf
      have hshape : ∃ a b, bf.idx = .rng a b := by
        by_cases hm : 'm' ∈ its
        · rw [if_pos hm] at hintl
          exact internalFrags_shape _ _ bf hintl hbf
        · rw [if_neg hm] at hintl
          injection hintl with h2
          subst h2
          simp at hbf
      obtain ⟨a, b, hidx⟩ := hshape
      rw [hidx]
      show ¬ (('m' :: (natDigits a ++ ':' :: natDigits b)).head? = some t)
      simp only [List.head?_cons, Option.some.injEq]
      intro hh
      exact (abc_not_special t htl).1 hh.symm
    have hppart : entriesOfCat t ((if 'p' ∈ its then
        [(⟨seq, 'M', .prec, modMassSum (om.getD [])⟩ : BaseFrag)] else []).flatMap
          (fun bf => (List.range' 1 mc).map
            (fun (c : ℕ) => (mkKnown (annotType bf.ion bf.idx) (c : ℤ),
              fastMassD bf.fseq bf.ion c + bf.modMass / (c : ℚ))))) = [] := by
      apply entriesOfCat_flatMap_none
      intro bf hbf
      by_cases hp : 'p' ∈ its
      · rw [if_pos hp] at hbf
        simp at hbf
        subst hbf
        show ¬ ((['p'] : List Char).head? = some t)
        simp only [List.head?_cons, Option.some.injEq]
        intro hh
        exact (abc_not_special t htl).2.1 hh.symm
      · rw [if_neg hp] at hbf
        simp at hbf
    rw [hcpart, hipart, hppart]
    rw [habc, walkNCats_single, hom, walkN_full seq t nts ints cts hs]
    rw [entriesOfCat_flatMap_all]
    · rw [flatMap_map']
      simp only [annotType_num, List.append_nil]
      exact List.Perm.refl _
    · intro bf hbf
      obtain ⟨f, -, rfl⟩ := List.mem_map.mp hbf
      rw [annotType_num]
      rfl
  · -- C-terminal clause
    intro t hxyz
    have ht0 : t ∈ ['x', 'y', 'z'].filter (fun c => c ∈ its) := by
      rw [hxyz]
      exact List.mem_cons_self _ _
    have htl := (List.mem_filter.mp ht0).1
    have hcs : ∀ f, claimSumC (om.getD []) f =
        cts.sum + ((ints.filter (fun p => decide (f ≤ p.1))).map (fun p => p.2)).sum := by
      intro f
      rw [hom, claimSumC_decomp]
    simp only [hcs]
    refine (entriesOfCat_sort t _).trans ?_
    rw [entriesOfCat_append, entriesOfCat_append, hLfilter t,
      hImmFilter t (xyz_not_special t htl).2.2]
    rw [List.flatMap_append, List.flatMap_append, List.flatMap_append]
    rw [entriesOfCat_append, entriesOfCat_append, entriesOfCat_append]
    have hnpart : entriesOfCat t ((walkNCats seq
        (['a', 'b', 'c'].filter (fun c => c ∈ its)) (om.getD []) 0).flatMap
          (fun bf => (List.range' 1 mc).map
            (fun (c : ℕ) => (mkKnown (annotType bf.ion bf.idx) (c : ℤ),
              fastMassD bf.fseq bf.ion c + bf.modMass / (c : ℚ))))) = [] := by
      apply entriesOfCat_flatMap_none
      intro bf hbf
      obtain ⟨hion, i, hidx⟩ := walkNCats_shape _ _ _ bf hbf
      rw [hidx, annotType_num]
      simp only [List.head?_cons, ne_eq, Option.some.injEq]
      exact xyz_abc_disjoint bf.ion (List.mem_of_mem_filter hion) t htl
    have hipart : entriesOfCat t (intl.flatMap
        (fun bf => (List.range' 1 mc).map
          (fun (c : ℕ) => (mkKnown (annotType bf.ion bf.idx) (c : ℤ),
            fastMassD bf.fseq bf.ion c + bf.modMass / (c : ℚ))))) = [] := by
      apply entriesOfCat_flatMap_none
      intro bf hbf
      have hshape : ∃ a b, bf.idx = .rng a b := by
        by_cases hm : 'm' ∈ its
        · rw [if_pos hm] at hintl
          exact internalFrags_shape _ _ bf hintl hbf
        · rw [if_neg hm] at hintl
          injection hintl with h2
          subst h2
          simp at hbf
      obtain ⟨a, b, hidx⟩ := hshape
      rw [hidx]
      show ¬ (('m' :: (natDigits a ++ ':' :: natDigits b)).head? = some t)
      simp only [List.head?_cons, Option.some.injEq]
      intro hh
      exact (xyz_not_special t htl).1 hh.symm
    have hppart : entriesOfCat t ((if 'p' ∈ its then
        [(⟨seq, 'M', .prec, modMassSum (om.getD [])⟩ : BaseFrag)] else []).flatMap
          (fun bf => (List.range' 1 mc).map
            (fun (c : ℕ) => (mkKnown (annotType bf.ion bf.idx) (c : ℤ),
              fastMassD bf.fseq bf.ion c + bf.modMass / (c : ℚ))))) = [] := by
      apply entriesOfCat_flatMap_none
      intro bf hbf
      by_cases hp : 'p' ∈ its
      · rw [if_pos hp] at hbf
        simp at hbf
        subst hbf
        show ¬ ((['p'] : List Char).head? = some t)
        simp only [List.head?_cons, Option.some.injEq]
        intro hh
        exact (xyz_not_special t htl).2.1 hh.symm
      · rw [if_neg hp] at hbf
        simp at hbf
    rw [hnpart, hipart, hppart]
    rw [hxyz, walkCCats_single, hom, walkC_full seq t nts ints cts hs]
    rw [entriesOfCat_flatMap_all]
    · rw [flatMap_map']
      simp only [annotType_num, List.append_nil, List.nil_append]
      exact List.Perm.refl _
    · intro bf hbf
      obtain ⟨f, -, rfl⟩ := List.mem_map.mp hbf
      rw [annotType_num]
      rfl

/-- Claim C1 (amended): for a position-sorted modification list (`N-term`
entries, then integer positions in nondecreasing order, then `C-term`
entries) and at most one requested category per terminal group, the
modification mass added to each terminal fragment's m/z (divided by the
charge) is exactly the spec's sum: for the N-terminal category, the
modifications at `N-term` or at an integer index strictly below the cleavage
index; for the C-terminal category, those at `C-term` or at an integer index
at or above the cleavage index.  Stated as: the no-loss entries of the
requested category in the output are, up to the sort's permutation, exactly
the expected fragments with those modification sums. -/
theorem C1_terminal_mod_mass (seq : List Char) (om : Option (List Modification))
    (nts : List ℚ) (ints : List (ℕ × ℚ)) (cts : List ℚ)
    (hs : ints.Pairwise (fun a b => a.1 ≤ b.1))
    (hom : om.getD [] = ntermMods nts ++ intMods ints ++ ctermMods cts)
    (its : List Char) (mc : ℕ) (nl : Option (List (Option (List Char) × ℚ)))
    (out : List (FragmentAnnot × ℚ))
    (h : get_theoretical_fragments ⟨seq, om⟩ its mc nl = .ok out) :
    (∀ t, ['a', 'b', 'c'].filter (fun c => c ∈ its) = [t] →
      (entriesOfCat t out).Perm ((List.range' 1 (seq.length - 1)).flatMap (fun f =>
        (List.range' 1 mc).map (fun (c : ℕ) => (mkKnown (t :: natDigits f) (c : ℤ),
          fastMassD (seq.take f) t c + claimSumN (om.getD []) f / (c : ℚ)))))) ∧
    (∀ t, ['x', 'y', 'z'].filter (fun c => c ∈ its) = [t] →
      (entriesOfCat t out).Perm (((List.range' 1 (seq.length - 1)).reverse).flatMap (fun f =>
        (List.range' 1 mc).map (fun (c : ℕ) => (mkKnown (t :: natDigits (seq.length - f)) (c : ℤ),
          fastMassD (seq.drop f) t c + claimSumC (om.getD []) f / (c : ℚ)))))) :=
  terminal_cats_perm seq om nts ints cts hs hom its mc nl out h

lemma massesOfLabel_sort (lbl : List Char) (l : List (FragmentAnnot × ℚ)) :
    (massesOfLabel lbl (sortByMass l)).Perm (massesOfLabel lbl l) :=
  ((sortByMass_perm l).filter _).map _

/-- Counterexample to claim C1 as stated: on sequence `AGA` with a single
modification of mass 10 at integer position 1 and `ion_types = "ab"` (two
categories of the same terminal group), the generated `b1` fragment does not
carry the claimed modification mass.  The claim demands `b1`'s mass be the
plain fragment mass plus the sum over modifications at `N-term` or integer
position < 1 (that sum is 0 here); the code's cursor and accumulator carry
over from the finished `a`-series walk, so `b1` is emitted with the
position-1 modification mass 10 included. -/
theorem C1_carryover_counterexample :
    ∃ out, get_theoretical_fragments ⟨['A', 'G', 'A'], some [⟨.pint 1, 10⟩]⟩
        ['a', 'b'] 1 none = .ok out ∧
      ¬ (massesOfLabel ['b', '1'] out).Perm
          [fastMassD ['A'] 'b' 1 + claimSumN [⟨.pint 1, 10⟩] 1 / 1] := by
  refine ⟨_, rfl, ?_⟩
  intro hperm
  have h1 := (massesOfLabel_sort ['b', '1'] _).symm.trans hperm
  simp [get_theoretical_fragments, allFragments, preLossFragments, baseFragments,
    walkNCats, walkN, skipUnloc, foldN, walkCCats, walkC, foldC, internalFrags,
    chargeStage, expandCharges, annotType, mkFragmentAnnot, immoniumFragments,
    lossFragments, lossPerFrag, massesOfLabel, mkKnown, defaultAdduct,
    List.range', natDigits, natDigitsAux, digitChar, allowedChars, advancedChars,
    qmarkStr, intStr, fast_mass, fastMassD, seqMass, lookupAaMass, aaTable,
    ionOffset, massH2O, massProton, massHAtom, massOAtom, massCO, massNH3,
    massCAtom, massNAtom, claimSumN, posQualN, modMassSum, ntermStr, ctermStr] at h1

/-- Witness for C1 (amended): on sequence `AGA` with one modification of
mass 10 at integer position 1 and only the `b` series requested, the no-loss
`b`-entries of the output are exactly `b1` and `b2` at charge 1, with
modification masses `claimSumN` at cleavage indices 1 and 2. -/
theorem C1_terminal_mod_mass_witness :
    ∃ out, get_theoretical_fragments ⟨['A', 'G', 'A'], some [⟨.pint 1, 10⟩]⟩
        ['b'] 1 none = .ok out ∧
      (entriesOfCat 'b' out).Perm ((List.range' 1 2).flatMap (fun f =>
        (List.range' 1 1).map (fun (c : ℕ) => (mkKnown ('b' :: natDigits f) (c : ℤ),
          fastMassD (['A', 'G', 'A'].take f) 'b' c +
            claimSumN [⟨.pint 1, 10⟩] f / (c : ℚ))))) :=
  ⟨_, rfl, (C1_terminal_mod_mass ['A', 'G', 'A'] (some [⟨.pint 1, 10⟩])
      [] [(1, 10)] [] (by decide) rfl ['b'] 1 none _ rfl).1 'b' (by decide)⟩

lemma pairwise_lt_range1 (s n : ℕ) :
    (List.range' s n).Pairwise (fun a b => a < b) := by
  induction n generalizing s with
  | zero => exact List.Pairwise.nil
  | succ n ih =>
    show (s :: List.range' (s + 1) n).Pairwise (fun a b => a < b)
    refine List.Pairwise.cons ?_ (ih (s + 1))
    intro b hb
    have := (List.mem_range'_1).mp hb
    omega

lemma residuesKnown_of_pos {seq : List Char} (hpos : residuesPositive seq) :
    residuesKnown seq := by
  intro c hc
  obtain ⟨q, hq, -⟩ := hpos c hc
  rw [hq]
  rfl

lemma seqMass_eq_sum (seq : List Char) (hk : residuesKnown seq) :
    seqMass seq = some ((seq.map (fun c => (lookupAaMass c).getD 0)).sum) := by
  induction seq with
  | nil => rfl
  | cons c cs ih =>
    obtain ⟨m, hm⟩ := Option.isSome_iff_exists.mp (hk c (List.mem_cons_self c cs))
    have ihh := ih (fun x hx => hk x (List.mem_cons_of_mem c hx))
    simp only [seqMass, hm, ihh, List.map_cons, List.sum_cons, Option.getD_some]

lemma fastMassD_b_known (seq : List Char) (hk : residuesKnown seq) :
    fastMassD seq 'b' 1 =
      (seq.map (fun c => (lookupAaMass c).getD 0)).sum + massH2O + ionOffset 'b' +
        massProton := by
  rw [fastMassD, fast_mass, seqMass_eq_sum seq hk]
  simp

lemma sumD_take_succ (seq : List Char) (f : ℕ) (hf : f < seq.length) :
    ((seq.take (f + 1)).map (fun c => (lookupAaMass c).getD 0)).sum =
      ((seq.take f).map (fun c => (lookupAaMass c).getD 0)).sum +
        (lookupAaMass seq[f]).getD 0 := by
  rw [List.take_succ, List.getElem?_eq_getElem hf, List.map_append, List.sum_append]
  simp only [Option.toList_some, List.map_cons, List.map_nil, List.sum_cons,
    List.sum_nil, add_zero]

lemma sumD_take_lt (seq : List Char) (hpos : residuesPositive seq) :
    ∀ b a, a < b → b ≤ seq.length →
      ((seq.take a).map (fun c => (lookupAaMass c).getD 0)).sum <
        ((seq.take b).map (fun c => (lookupAaMass c).getD 0)).sum := by
  intro b
  induction b with
  | zero => exact fun a ha _ => absurd ha (Nat.not_lt_zero a)
  | succ b ih =>
    intro a ha hb
    have hfb : b < seq.length := by omega
    have hstep : ((seq.take b).map (fun c => (lookupAaMass c).getD 0)).sum <
        ((seq.take (b + 1)).map (fun c => (lookupAaMass c).getD 0)).sum := by
      rw [sumD_take_succ seq b hfb]
      obtain ⟨q, hq, hqpos⟩ := hpos _ (List.getElem_mem hfb)
      rw [hq, Option.getD_some]
      linarith
    rcases Nat.lt_or_ge a b with h2 | h2
    · exact lt_trans (ih a h2 (by omega)) hstep
    · have h3 : a = b := by omega
      subst h3
      exact hstep

lemma fastMassD_take_lt (seq : List Char) (hpos : residuesPositive seq)
    (a b : ℕ) (hab : a < b) (hb : b ≤ seq.length) :
    fastMassD (seq.take a) 'b' 1 < fastMassD (seq.take b) 'b' 1 := by
  have hk : residuesKnown seq := residuesKnown_of_pos hpos
  have hka : residuesKnown (seq.take a) := fun c hc => hk c (List.take_subset a seq hc)
  have hkb : residuesKnown (seq.take b) := fun c hc => hk c (List.take_subset b seq hc)
  rw [fastMassD_b_known _ hka, fastMassD_b_known _ hkb]
  have hsum := sumD_take_lt seq hpos b a hab hb
  linarith

lemma flatMap_single_charge (l : List ℕ) (F : ℕ → ℕ → FragmentAnnot × ℚ) :
    l.flatMap (fun f => (List.range' 1 1).map (F f)) = l.map (fun f => F f 1) := by
  induction l with
  | nil => rfl
  | cons a t ih =>
    simp only [List.flatMap_cons, List.map_cons]
    rw [ih]
    rfl

/-- Claim C9 (amended): for an unmodified peptide whose residues all have
strictly positive table masses, the generated no-loss `b` entries at maximum
charge 1 are, up to the sort's permutation, exactly the `b`-ions at cleavage
indices 1 to length − 1, and their masses listed in cleavage order are
strictly increasing.  (The source's residue table maps the wildcard `X` to
mass 0, so positivity, which fails for `X`, is a necessary hypothesis.) -/
theorem C9_b_strict_mono (seq : List Char) (hpos : residuesPositive seq)
    (out : List (FragmentAnnot × ℚ))
    (h : get_theoretical_fragments ⟨seq, none⟩ ['b'] 1 none = .ok out) :
    (entriesOfCat 'b' out).Perm ((List.range' 1 (seq.length - 1)).map (fun f =>
      (mkKnown ('b' :: natDigits f) 1, fastMassD (seq.take f) 'b' 1))) ∧
    (((List.range' 1 (seq.length - 1)).map (fun f =>
      (mkKnown ('b' :: natDigits f) 1, fastMassD (seq.take f) 'b' 1))).map
        (fun e => e.2)).Pairwise (fun x y => x < y) := by
  have hperm := (terminal_cats_perm seq none [] [] [] List.Pairwise.nil rfl
    ['b'] 1 none out h).1 'b' (by decide)
  rw [flatMap_single_charge] at hperm
  have hmapeq : (List.range' 1 (seq.length - 1)).map
      (fun f => (mkKnown ('b' :: natDigits f) ((1 : ℕ) : ℤ),
        fastMassD (seq.take f) 'b' 1 +
          claimSumN ((none : Option (List Modification)).getD []) f / ((1 : ℕ) : ℚ))) =
      (List.range' 1 (seq.length - 1)).map (fun f =>
        (mkKnown ('b' :: natDigits f) 1, fastMassD (seq.take f) 'b' 1)) := by
    refine List.map_congr_left ?_
    intro f hf
    norm_num [claimSumN, modMassSum]
  constructor
  · exact hmapeq ▸ hperm
  · rw [List.map_map, List.pairwise_map]
    refine List.Pairwise.imp_of_mem ?_ (pairwise_lt_range1 1 (seq.length - 1))
    intro a b ha hb hab
    have hbb := (List.mem_range'_1).mp hb
    exact fastMassD_take_lt seq hpos a b hab (by omega)

lemma massesOfLabel_sort_singleton (lbl : List Char) (l : List (FragmentAnnot × ℚ))
    (m : ℚ) (h : massesOfLabel lbl l = [m]) :
    massesOfLabel lbl (sortByMass l) = [m] :=
  List.perm_singleton.mp ((massesOfLabel_sort lbl l).trans (h ▸ List.Perm.refl _))

/-- Counterexample to claim C9 as stated: the residue table maps the
wildcard `X` to mass 0, so on the unmodified peptide `AXA` the generator's
`b1` and `b2` ions have equal masses — the `b`-ion masses are not strictly
increasing in the cleavage index. -/
theorem C9_wildcard_counterexample :
    ∃ out, get_theoretical_fragments ⟨['A', 'X', 'A'], none⟩ ['b'] 1 none = .ok out ∧
      ∃ m1 m2, massesOfLabel ['b', '1'] out = [m1] ∧
        massesOfLabel ['b', '2'] out = [m2] ∧ ¬ m1 < m2 := by
  refine ⟨_, rfl, fastMassD ['A'] 'b' 1, fastMassD ['A', 'X'] 'b' 1,
    massesOfLabel_sort_singleton _ _ _ ?_, massesOfLabel_sort_singleton _ _ _ ?_, ?_⟩
  · simp [allFragments, preLossFragments, baseFragments,
      walkNCats, walkN, skipUnloc, foldN, walkCCats, walkC, foldC, internalFrags,
      chargeStage, expandCharges, annotType, mkFragmentAnnot, immoniumFragments,
      lossFragments, lossPerFrag, massesOfLabel, mkKnown, defaultAdduct,
      List.range', natDigits, natDigitsAux, digitChar, allowedChars, advancedChars,
      qmarkStr, intStr, fast_mass, fastMassD, seqMass, lookupAaMass, aaTable,
      ionOffset, massH2O, massProton, massHAtom, massOAtom, massCO, massNH3,
      massCAtom, massNAtom]
  · simp [allFragments, preLossFragments, baseFragments,
      walkNCats, walkN, skipUnloc, foldN, walkCCats, walkC, foldC, internalFrags,
      chargeStage, expandCharges, annotType, mkFragmentAnnot, immoniumFragments,
      lossFragments, lossPerFrag, massesOfLabel, mkKnown, defaultAdduct,
      List.range', natDigits, natDigitsAux, digitChar, allowedChars, advancedChars,
      qmarkStr, intStr, fast_mass, fastMassD, seqMass, lookupAaMass, aaTable,
      ionOffset, massH2O, massProton, massHAtom, massOAtom, massCO, massNH3,
      massCAtom, massNAtom]
  · have hx : fastMassD ['A', 'X'] 'b' 1 = fastMassD ['A'] 'b' 1 := by
      simp [fastMassD, fast_mass, seqMass, lookupAaMass, aaTable]
    rw [hx]
    exact lt_irrefl _

/-- Witness for C9 (amended): on the unmodified peptide `AGA` (all residue
masses positive), the no-loss `b` entries are exactly `b1`, `b2` up to the
sort, and their masses in cleavage order are strictly increasing. -/
theorem C9_b_strict_mono_witness :
    ∃ out, get_theoretical_fragments ⟨['A', 'G', 'A'], none⟩ ['b'] 1 none = .ok out ∧
      ((entriesOfCat 'b' out).Perm ((List.range' 1 2).map (fun f =>
        (mkKnown ('b' :: natDigits f) 1, fastMassD (['A', 'G', 'A'].take f) 'b' 1))) ∧
      (((List.range' 1 2).map (fun f =>
        (mkKnown ('b' :: natDigits f) 1, fastMassD (['A', 'G', 'A'].take f) 'b' 1))).map
          (fun e => e.2)).Pairwise (fun x y => x < y)) :=
  ⟨_, rfl, C9_b_strict_mono ['A', 'G', 'A'] (by
    intro c hc
    simp only [List.mem_cons, List.not_mem_nil, or_false] at hc
    rcases hc with rfl | rfl | rfl
    · exact ⟨71.03711, rfl, by norm_num⟩
    · exact ⟨57.02146, rfl, by norm_num⟩
    · exact ⟨71.03711, rfl, by norm_num⟩) _ rfl⟩
